import Mathlib

/-!
Verification development for the CIRS Store-and-Forward Logistics Protocol
(`src/shared/protocol/chunking.py`, `src/shared/crypto/signing.py`,
`src/shared/crypto/hmac.py`, `src/shared/crypto/encryption.py`,
`src/shared/protocol/manifest.py`, `src/shared/protocol/report.py`).

Python byte strings are modelled as `List Nat` (each entry `< 256` where it
matters), Python text strings as `List Char`.  Library primitives that the
repository calls (base64, zlib, Ed25519, X25519 sealed boxes, HMAC-SHA256,
JSON) are modelled explicitly below, next to the repository functions that
use them; everything written by the repository itself is translated
line-by-line from the source.
-/

set_option autoImplicit false

namespace CIRS

/-! ### Decimal numerals

`str(n)` for a non-negative Python int.  Implemented with an explicit fuel
argument (`fuel ≥ n` always holds at call sites) so that the definition is
structurally recursive and evaluates by `decide`. -/

/-- Little-endian decimal digits of `n`, with `fuel` bounding the recursion. -/
def natToCharsAux : Nat → Nat → List Char
  | _, 0 => []
  | 0, _ => []
  | fuel + 1, n + 1 => Nat.digitChar ((n + 1) % 10) :: natToCharsAux fuel ((n + 1) / 10)

/-- Decimal rendering of a natural number, as Python's `str(n)` produces it. -/
def natToChars (n : Nat) : List Char :=
  if n = 0 then ['0'] else (natToCharsAux n n).reverse

theorem natToCharsAux_zero (f : Nat) : natToCharsAux f 0 = [] := by
  cases f <;> rfl

theorem natToCharsAux_self_eq : ∀ n f, n ≤ f → natToCharsAux f n = natToCharsAux n n := by
  intro n
  induction n using Nat.strong_induction_on with
  | _ n ih =>
    intro f hf
    cases n with
    | zero => rw [natToCharsAux_zero, natToCharsAux_zero]
    | succ n' =>
      obtain ⟨f', rfl⟩ : ∃ f', f = f' + 1 := ⟨f - 1, by omega⟩
      simp only [natToCharsAux]
      have hd : (n' + 1) / 10 < n' + 1 := Nat.div_lt_self (Nat.succ_pos n') (by norm_num)
      rw [ih ((n' + 1) / 10) hd f' (by omega), ih ((n' + 1) / 10) hd n' (by omega)]

/-- Unfolding of `natToChars` one trailing decimal digit at a time. -/
theorem natToChars_step (n : Nat) (h : 10 ≤ n) :
    natToChars n = natToChars (n / 10) ++ [Nat.digitChar (n % 10)] := by
  have hn : n ≠ 0 := by omega
  have hd : n / 10 ≠ 0 := by
    intro h0
    have := Nat.div_add_mod n 10
    omega
  obtain ⟨m, rfl⟩ : ∃ m, n = m + 1 := ⟨n - 1, by omega⟩
  unfold natToChars
  rw [if_neg hn, if_neg hd]
  have h1 : natToCharsAux (m + 1) (m + 1)
      = Nat.digitChar ((m + 1) % 10) :: natToCharsAux m ((m + 1) / 10) := rfl
  have hle : (m + 1) / 10 ≤ m :=
    Nat.le_of_lt_succ (Nat.div_lt_self (Nat.succ_pos m) (by norm_num))
  rw [h1, natToCharsAux_self_eq ((m + 1) / 10) m hle]
  simp

theorem natToChars_small (n : Nat) (h : n < 10) (h0 : n ≠ 0) :
    natToChars n = [Nat.digitChar n] := by
  obtain ⟨m, rfl⟩ : ∃ m, n = m + 1 := ⟨n - 1, by omega⟩
  unfold natToChars
  rw [if_neg h0]
  have h1 : natToCharsAux (m + 1) (m + 1)
      = Nat.digitChar ((m + 1) % 10) :: natToCharsAux m ((m + 1) / 10) := rfl
  have hdiv : (m + 1) / 10 = 0 := Nat.div_eq_of_lt h
  have hmod : (m + 1) % 10 = m + 1 := Nat.mod_eq_of_lt h
  rw [h1, hdiv, natToCharsAux_zero, hmod]
  rfl

theorem digitChar_isDigit (d : Nat) (h : d < 10) : (Nat.digitChar d).isDigit = true := by
  interval_cases d <;> decide

theorem natToChars_all_digits (n : Nat) : ∀ c ∈ natToChars n, c.isDigit = true := by
  induction n using Nat.strong_induction_on with
  | _ n ih =>
    by_cases h0 : n = 0
    · subst h0
      intro c hc
      simp [natToChars] at hc
      subst hc
      decide
    by_cases hs : n < 10
    · rw [natToChars_small n hs h0]
      intro c hc
      simp at hc
      subst hc
      exact digitChar_isDigit n hs
    · rw [natToChars_step n (by omega)]
      intro c hc
      rcases List.mem_append.1 hc with h | h
      · exact ih (n / 10) (Nat.div_lt_self (by omega) (by norm_num)) c h
      · simp at h
        subst h
        exact digitChar_isDigit (n % 10) (Nat.mod_lt n (by norm_num))

theorem isDigit_ne_pipe {c : Char} (h : c.isDigit = true) : c ≠ '|' := by
  intro hc
  subst hc
  exact absurd h (by decide)

theorem isDigit_ne_slash {c : Char} (h : c.isDigit = true) : c ≠ '/' := by
  intro hc
  subst hc
  exact absurd h (by decide)

theorem natToChars_length_le (k : Nat) : ∀ n, n < 10 ^ (k + 1) → (natToChars n).length ≤ k + 1 := by
  induction k with
  | zero =>
    intro n hn
    norm_num at hn
    by_cases h0 : n = 0
    · subst h0
      have h1 : (natToChars 0).length = 1 := rfl
      omega
    · have h1 : (natToChars n).length = 1 := by
        rw [natToChars_small n hn h0]
        rfl
      omega
  | succ k ih =>
    intro n hn
    by_cases h0 : n = 0
    · subst h0
      have h1 : (natToChars 0).length = 1 := rfl
      omega
    by_cases hs : n < 10
    · have h1 : (natToChars n).length = 1 := by
        rw [natToChars_small n hs h0]
        rfl
      omega
    · rw [natToChars_step n (by omega)]
      have hdiv : n / 10 < 10 ^ (k + 1) := by
        rw [Nat.div_lt_iff_lt_mul (by norm_num)]
        calc n < 10 ^ (k + 2) := hn
        _ = 10 ^ (k + 1) * 10 := by ring
      have := ih (n / 10) hdiv
      simp only [List.length_append, List.length_cons, List.length_nil]
      omega

/-! ### Python `int()` parsing (ASCII inputs)

Model of `int(s)` as used by `parse_chunk`: optional surrounding ASCII
whitespace, an optional sign, then decimal digits with single underscores
allowed between digits.  Returns `none` where `int()` raises `ValueError`. -/

def isPySpace (c : Char) : Bool :=
  c = ' ' ∨ c = '\t' ∨ c = '\n' ∨ c = '\r' ∨ c = Char.ofNat 11 ∨ c = Char.ofNat 12

def stripChars (s : List Char) : List Char :=
  ((s.dropWhile isPySpace).reverse.dropWhile isPySpace).reverse

def digitVal (c : Char) : Nat := c.toNat - 48

mutual

/-- Digits after the first one: each is a digit, or an underscore followed by a digit. -/
def pyDigitsGo (acc : Nat) : List Char → Option Nat
  | [] => some acc
  | c :: rest =>
    if c.isDigit then pyDigitsGo (acc * 10 + digitVal c) rest
    else if c = '_' then pyDigitsUnd acc rest
    else none

/-- Right after an underscore a digit must follow. -/
def pyDigitsUnd (acc : Nat) : List Char → Option Nat
  | [] => none
  | d :: rest => if d.isDigit then pyDigitsGo (acc * 10 + digitVal d) rest else none

end

/-- An unsigned decimal literal: at least one digit, underscores only between digits. -/
def pyDigits : List Char → Option Nat
  | [] => none
  | c :: rest => if c.isDigit then pyDigitsGo (digitVal c) rest else none

/-- `int(s)` for ASCII `s`; `none` models `ValueError`. -/
def pyIntParse (s : List Char) : Option Int :=
  match stripChars s with
  | '+' :: rest => (pyDigits rest).map Int.ofNat
  | '-' :: rest => (pyDigits rest).map (fun n => -(n : Int))
  | rest => (pyDigits rest).map Int.ofNat

theorem pyDigitsGo_digits (ds : List Char) (hds : ∀ c ∈ ds, c.isDigit = true) :
    ∀ acc, pyDigitsGo acc ds = some (ds.foldl (fun a c => a * 10 + digitVal c) acc) := by
  induction ds with
  | nil =>
    intro acc
    rfl
  | cons c rest ih =>
    intro acc
    have hc : c.isDigit = true := hds c (by simp)
    have hrest : ∀ x ∈ rest, x.isDigit = true := fun x hx => hds x (by simp [hx])
    have hstep : pyDigitsGo acc (c :: rest) = pyDigitsGo (acc * 10 + digitVal c) rest := by
      simp [pyDigitsGo, hc]
    rw [hstep, ih hrest]
    rfl

theorem pyDigits_digits (c : Char) (rest : List Char)
    (h : ∀ x ∈ c :: rest, x.isDigit = true) :
    pyDigits (c :: rest)
      = some (rest.foldl (fun a x => a * 10 + digitVal x) (digitVal c)) := by
  have hc : c.isDigit = true := h c (by simp)
  have hrest : ∀ x ∈ rest, x.isDigit = true := fun x hx => h x (by simp [hx])
  simp only [pyDigits, if_pos hc]
  exact pyDigitsGo_digits rest hrest (digitVal c)

theorem digitVal_digitChar (d : Nat) (h : d < 10) : digitVal (Nat.digitChar d) = d := by
  interval_cases d <;> decide

theorem isPySpace_digit_false {c : Char} (h : c.isDigit = true) : isPySpace c = false := by
  by_contra hns
  have hsp : isPySpace c = true := by
    cases hb : isPySpace c
    · exact absurd hb hns
    · rfl
  simp only [isPySpace, Bool.or_eq_true, decide_eq_true_eq] at hsp
  rcases hsp with h1 | h1 | h1 | h1 | h1 | h1 <;>
    · subst h1
      exact absurd h (by decide)

theorem stripChars_digits (s : List Char) (h : ∀ c ∈ s, c.isDigit = true) :
    stripChars s = s := by
  have h1 : s.dropWhile isPySpace = s := by
    cases s with
    | nil => rfl
    | cons c rest =>
      rw [List.dropWhile_cons_of_neg]
      simp [isPySpace_digit_false (h c (by simp))]
  have h2 : s.reverse.dropWhile isPySpace = s.reverse := by
    cases hrev : s.reverse with
    | nil => rfl
    | cons c rest =>
      rw [List.dropWhile_cons_of_neg]
      have hc : c ∈ s := by
        have : c ∈ s.reverse := by
          rw [hrev]
          simp
        simpa using this
      simp [isPySpace_digit_false (h c hc)]
  simp [stripChars, h1, h2]

theorem natToChars_foldl (m : Nat) :
    (natToChars m).foldl (fun a c => a * 10 + digitVal c) 0 = m := by
  induction m using Nat.strong_induction_on with
  | _ m ih =>
    by_cases h0 : m = 0
    · subst h0
      decide
    by_cases hs : m < 10
    · rw [natToChars_small m hs h0]
      simp only [List.foldl_cons, List.foldl_nil]
      rw [digitVal_digitChar m hs]
      omega
    · rw [natToChars_step m (by omega)]
      rw [List.foldl_append]
      rw [ih (m / 10) (Nat.div_lt_self (by omega) (by norm_num))]
      simp [digitVal_digitChar (m % 10) (Nat.mod_lt m (by norm_num))]
      omega

/-- Parsing recovers the rendered numeral: `int(str(n)) == n`. -/
theorem pyIntParse_natToChars (n : Nat) : pyIntParse (natToChars n) = some (n : Int) := by
  have hdig := natToChars_all_digits n
  have hcons : ∃ c rest, natToChars n = c :: rest := by
    by_cases h0 : n = 0
    · subst h0
      exact ⟨'0', [], rfl⟩
    · by_cases hs : n < 10
      · exact ⟨Nat.digitChar n, [], natToChars_small n hs h0⟩
      · rw [natToChars_step n (by omega)]
        rcases hh : natToChars (n / 10) with _ | ⟨c, rest⟩
        · exact ⟨Nat.digitChar (n % 10), [], by simp⟩
        · exact ⟨c, rest ++ [Nat.digitChar (n % 10)], by simp⟩
  obtain ⟨c, rest, hcr⟩ := hcons
  have hc : c.isDigit = true := hdig c (by rw [hcr]; simp)
  have hplus : ¬ c = '+' := by
    intro h
    subst h
    exact absurd hc (by decide)
  have hminus : ¬ c = '-' := by
    intro h
    subst h
    exact absurd hc (by decide)
  have hstrip : stripChars (natToChars n) = natToChars n := stripChars_digits _ hdig
  have hrest : ∀ x ∈ c :: rest, x.isDigit = true := by
    intro x hx
    exact hdig x (hcr ▸ hx)
  have hfold' : rest.foldl (fun a x => a * 10 + digitVal x) (digitVal c) = n := by
    have := natToChars_foldl n
    rw [hcr] at this
    simpa using this
  have hp : pyDigits (c :: rest) = some n := by
    rw [pyDigits_digits c rest hrest, hfold']
  unfold pyIntParse
  rw [hstrip, hcr]
  split
  · next heq =>
    exact absurd (List.head_eq_of_cons_eq heq.symm).symm hplus
  · next heq =>
    exact absurd (List.head_eq_of_cons_eq heq.symm).symm hminus
  · rw [hp]
    rfl

/-! ### Base64 (model of `base64.b64encode` / `base64.b64decode`)

Standard base64 with `=` padding over byte lists.  `b64decode` handles the
canonical texts `b64encode` emits (groups of four alphabet characters with
final padding) and rejects everything else; only such texts reach it in the
verified code paths. -/

def b64Alphabet : List Char :=
  "ABCDEFGHIJKLMNOPQRSTUVWXYZabcdefghijklmnopqrstuvwxyz0123456789+/".toList

def b64Char (n : Nat) : Char := b64Alphabet.getD n 'A'

def b64CharVal (c : Char) : Option Nat := b64Alphabet.findIdx? (fun x => x == c)

def b64encode : List Nat → List Char
  | a :: b :: c :: rest =>
    b64Char (a / 4) :: b64Char (a % 4 * 16 + b / 16) ::
      b64Char (b % 16 * 4 + c / 64) :: b64Char (c % 64) :: b64encode rest
  | [a, b] => [b64Char (a / 4), b64Char (a % 4 * 16 + b / 16), b64Char (b % 16 * 4), '=']
  | [a] => [b64Char (a / 4), b64Char (a % 4 * 16), '=', '=']
  | [] => []

def b64decode : List Char → Option (List Nat)
  | [] => some []
  | c1 :: c2 :: c3 :: c4 :: rest =>
    match b64CharVal c1, b64CharVal c2 with
    | some v1, some v2 =>
      if c3 = '=' then
        if c4 = '=' ∧ rest = [] then some [v1 * 4 + v2 / 16] else none
      else
        match b64CharVal c3 with
        | some v3 =>
          if c4 = '=' then
            if rest = [] then some [v1 * 4 + v2 / 16, v2 % 16 * 16 + v3 / 4] else none
          else
            match b64CharVal c4 with
            | some v4 =>
              match b64decode rest with
              | some tail =>
                some ((v1 * 4 + v2 / 16) :: (v2 % 16 * 16 + v3 / 4) :: (v3 % 4 * 64 + v4) :: tail)
              | none => none
            | none => none
        | none => none
    | _, _ => none
  | _ => none

theorem b64CharVal_b64Char (n : Nat) (h : n < 64) : b64CharVal (b64Char n) = some n := by
  interval_cases n <;> rfl

theorem b64Char_ne_eq (n : Nat) (h : n < 64) : b64Char n ≠ '=' := by
  interval_cases n <;> decide

theorem b64encode_length (bs : List Nat) :
    (b64encode bs).length = 4 * ((bs.length + 2) / 3) := by
  induction bs using b64encode.induct with
  | case1 a b c rest ih =>
    simp only [b64encode, List.length_cons]
    rw [ih]
    omega
  | case2 a b => simp [b64encode]
  | case3 a => simp [b64encode]
  | case4 => rfl

/-- Decoding inverts encoding: the model of `b64decode(b64encode(bs)) == bs`. -/
theorem b64decode_b64encode (bs : List Nat) (h : ∀ x ∈ bs, x < 256) :
    b64decode (b64encode bs) = some bs := by
  induction bs using b64encode.induct with
  | case1 a b c rest ih =>
    have ha : a < 256 := h a (by simp)
    have hb : b < 256 := h b (by simp)
    have hc : c < 256 := h c (by simp)
    have hrest : ∀ x ∈ rest, x < 256 := fun x hx => h x (by simp [hx])
    have h1 : a / 4 < 64 := by omega
    have h2 : a % 4 * 16 + b / 16 < 64 := by omega
    have h3 : b % 16 * 4 + c / 64 < 64 := by omega
    have h4 : c % 64 < 64 := by omega
    simp only [b64encode, b64decode, b64CharVal_b64Char _ h1, b64CharVal_b64Char _ h2,
      b64CharVal_b64Char _ h3, b64CharVal_b64Char _ h4,
      if_neg (b64Char_ne_eq _ h3), if_neg (b64Char_ne_eq _ h4), ih hrest]
    have e1 : a / 4 * 4 + (a % 4 * 16 + b / 16) / 16 = a := by omega
    have e2 : (a % 4 * 16 + b / 16) % 16 * 16 + (b % 16 * 4 + c / 64) / 4 = b := by omega
    have e3 : (b % 16 * 4 + c / 64) % 4 * 64 + c % 64 = c := by omega
    rw [e1, e2, e3]
  | case2 a b =>
    have ha : a < 256 := h a (by simp)
    have hb : b < 256 := h b (by simp)
    have h1 : a / 4 < 64 := by omega
    have h2 : a % 4 * 16 + b / 16 < 64 := by omega
    have h3 : b % 16 * 4 < 64 := by omega
    have e1 : a / 4 * 4 + (a % 4 * 16 + b / 16) / 16 = a := by omega
    have e2 : (a % 4 * 16 + b / 16) % 16 * 16 + b % 16 * 4 / 4 = b := by omega
    simp only [b64encode, b64decode, b64CharVal_b64Char _ h1, b64CharVal_b64Char _ h2,
      b64CharVal_b64Char _ h3, if_neg (b64Char_ne_eq _ h3), e1, e2]
    simp
  | case3 a =>
    have ha : a < 256 := h a (by simp)
    have h1 : a / 4 < 64 := by omega
    have h2 : a % 4 * 16 < 64 := by omega
    have e1 : a / 4 * 4 + a % 4 * 16 / 16 = a := by omega
    simp only [b64encode, b64decode, b64CharVal_b64Char _ h1, b64CharVal_b64Char _ h2, e1]
    simp
  | case4 => rfl

/-! ### Chunking codec (`src/shared/protocol/chunking.py`)

Chunk strings are `List Char`.  `protocolTag` models `PROTOCOL_PREFIX = "xIRS"`;
the separator is `'|'`. -/

def protocolTag : List Char := ['x', 'I', 'R', 'S']

def HEADER_OVERHEAD : Nat := 20

/-- The f-string `f"xIRS|{seq}/{total}|{data}"`. -/
def mkChunkStr (seq total : Nat) (data : List Char) : List Char :=
  protocolTag ++ '|' :: (natToChars seq ++ '/' :: (natToChars total ++ '|' :: data))

structure QRChunker where
  max_chunk_size : Nat := 800

/-- `self.max_data_size = max_chunk_size - HEADER_OVERHEAD` (non-negative at all call sites). -/
def QRChunker.max_data_size (ch : QRChunker) : Nat := ch.max_chunk_size - HEADER_OVERHEAD

/-- `QRChunker.chunk` on byte payloads (`str`/`dict` payloads are serialized to
bytes first in the source; the byte layer is where all chunking happens). -/
def QRChunker.chunk (ch : QRChunker) (payload : List Nat) : List (List Char) :=
  let payload_b64 := b64encode payload
  if payload_b64.length ≤ ch.max_data_size then
    [mkChunkStr 1 1 payload_b64]
  else
    let total := (payload_b64.length + ch.max_data_size - 1) / ch.max_data_size
    (List.range total).map (fun i =>
      mkChunkStr (i + 1) total
        ((payload_b64.drop (i * ch.max_data_size)).take ch.max_data_size))

structure ChunkInfo where
  sequence : Nat
  total : Nat
  data : List Char
  raw : List Char
deriving Repr, DecidableEq

/-- `str.split(sep, 1)` step: split off everything before the first separator. -/
def splitFirst (sep : Char) : List Char → Option (List Char × List Char)
  | [] => none
  | c :: cs =>
    if c = sep then some ([], cs)
    else
      match splitFirst sep cs with
      | none => none
      | some (a, b) => some (c :: a, b)

/-- `chunk_str.split('|', 2)`. -/
def splitMax2 (sep : Char) (s : List Char) : List (List Char) :=
  match splitFirst sep s with
  | none => [s]
  | some (a, r1) =>
    match splitFirst sep r1 with
    | none => [a, r1]
    | some (b, r2) => [a, b, r2]

/-- `seq_info.split('/')` (unbounded split). -/
def splitAll (sep : Char) : List Char → List (List Char)
  | [] => [[]]
  | c :: cs =>
    if c = sep then [] :: splitAll sep cs
    else
      match splitAll sep cs with
      | [] => [[c]]
      | p :: ps => (c :: p) :: ps

/-- `parse_chunk`: returns `none` wherever the source returns `None`
(wrong part count, wrong tag, malformed integers, `sequence < 1`, or
`sequence > total`); the `ValueError` from `int()` is the `none` of
`pyIntParse`. -/
def parse_chunk (chunk_str : List Char) : Option ChunkInfo :=
  match splitMax2 '|' chunk_str with
  | [tagPart, seq_info, data] =>
    if tagPart = protocolTag then
      match splitAll '/' seq_info with
      | [seqStr, totalStr] =>
        match pyIntParse seqStr, pyIntParse totalStr with
        | some sequence, some total =>
          if sequence < 1 ∨ sequence > total then none
          else some ⟨sequence.toNat, total.toNat, data, chunk_str⟩
        | _, _ => none
      | _ => none
    else none
  | _ => none

structure QRReassembler where
  chunks : List (Nat × List Char)
  total : Option Nat
  complete : Bool
deriving Repr, DecidableEq

/-- `reset()` / the state `__init__` builds. -/
def QRReassembler.reset : QRReassembler := ⟨[], none, false⟩

/-- `self._chunks[k] = v` on the dict modelled as an insertion-ordered association list. -/
def dictInsert (k : Nat) (v : List Char) : List (Nat × List Char) → List (Nat × List Char)
  | [] => [(k, v)]
  | (k', v') :: rest => if k = k' then (k, v) :: rest else (k', v') :: dictInsert k v rest

/-- `self._chunks.get(k)` / `k in self._chunks`. -/
def dictGet? (k : Nat) : List (Nat × List Char) → Option (List Char)
  | [] => none
  | (k', v') :: rest => if k = k' then some v' else dictGet? k rest

def QRReassembler.is_complete (st : QRReassembler) : Bool := st.complete

def QRReassembler.progress (st : QRReassembler) : Nat × Nat :=
  match st.total with
  | none => (st.chunks.length, 0)
  | some t => (st.chunks.length, t)

def QRReassembler.missing_sequences (st : QRReassembler) : List Nat :=
  match st.total with
  | none => []
  | some t => (List.range' 1 t).filter (fun i => (dictGet? i st.chunks).isNone)

/-- The lookups `self._chunks[i] for i in range(1, total + 1)`; `none` models `KeyError`. -/
def collectParts (chunks : List (Nat × List Char)) : List Nat → Option (List (List Char))
  | [] => some []
  | i :: is =>
    match dictGet? i chunks, collectParts chunks is with
    | some part, some rest => some (part :: rest)
    | _, _ => none

/-- `_reassemble`: concatenate fragments `1..total` in order and base64-decode;
`none` models an exception (`KeyError` or `binascii.Error`). -/
def QRReassembler.reassemble (st : QRReassembler) : Option (List Nat) :=
  match st.total with
  | none => none
  | some t =>
    match collectParts st.chunks (List.range' 1 t) with
    | none => none
    | some parts => b64decode parts.flatten

/-- The tail of `add_chunk` after validation: store the fragment, then complete
and reassemble if every sequence number has been seen. -/
def QRReassembler.store (st : QRReassembler) (info : ChunkInfo) :
    QRReassembler × Except Unit (Option (List Nat)) :=
  let st2 : QRReassembler := ⟨dictInsert info.sequence info.data st.chunks, st.total, st.complete⟩
  if some st2.chunks.length = st2.total then
    let st3 : QRReassembler := ⟨st2.chunks, st2.total, true⟩
    match st3.reassemble with
    | some bs => (st3, .ok (some bs))
    | none => (st3, .error ())
  else (st2, .ok none)

/-- `add_chunk`: the second component is `.ok none` for `return None`,
`.ok (some bs)` for a returned payload, `.error ()` for a raised exception. -/
def QRReassembler.add_chunk (st : QRReassembler) (chunk_str : List Char) :
    QRReassembler × Except Unit (Option (List Nat)) :=
  if st.complete then (st, .ok none)
  else
    match parse_chunk chunk_str with
    | none => (st, .ok none)
    | some info =>
      match st.total with
      | none => QRReassembler.store ⟨st.chunks, some info.total, st.complete⟩ info
      | some t =>
        if t ≠ info.total then (st, .ok none)
        else QRReassembler.store st info

/-- Driver: feed a list of chunk strings in order, collecting every `add_chunk` result. -/
def feedAll : QRReassembler → List (List Char) → QRReassembler × List (Except Unit (Option (List Nat)))
  | st, [] => (st, [])
  | st, c :: cs =>
    let p := st.add_chunk c
    let q := feedAll p.1 cs
    (q.1, p.2 :: q.2)


/-! ### Parsing the chunk strings the chunker emits -/

theorem splitFirst_not_mem {sep : Char} {s : List Char} (h : sep ∉ s) :
    splitFirst sep s = none := by
  induction s with
  | nil => rfl
  | cons c cs ih =>
    have hc : ¬ c = sep := by
      intro he
      exact h (by simp [he])
    have hcs : sep ∉ cs := fun hm => h (by simp [hm])
    simp [splitFirst, hc, ih hcs]

theorem splitFirst_append {sep : Char} {a : List Char} (h : sep ∉ a) :
    ∀ b, splitFirst sep (a ++ sep :: b) = some (a, b) := by
  induction a with
  | nil =>
    intro b
    simp [splitFirst]
  | cons c cs ih =>
    intro b
    have hc : ¬ c = sep := by
      intro he
      exact h (by simp [he])
    have hcs : sep ∉ cs := fun hm => h (by simp [hm])
    simp [splitFirst, hc, ih hcs]

theorem splitAll_no_sep {sep : Char} {s : List Char} (h : sep ∉ s) :
    splitAll sep s = [s] := by
  induction s with
  | nil => rfl
  | cons c cs ih =>
    have hc : ¬ c = sep := by
      intro he
      exact h (by simp [he])
    have hcs : sep ∉ cs := fun hm => h (by simp [hm])
    simp [splitAll, hc, ih hcs]

theorem splitAll_append {sep : Char} {a : List Char} (h : sep ∉ a) :
    ∀ b, splitAll sep (a ++ sep :: b) = a :: splitAll sep b := by
  induction a with
  | nil =>
    intro b
    cases hb : splitAll sep b with
    | nil => simp [splitAll, hb]
    | cons p ps => simp [splitAll, hb]
  | cons c cs ih =>
    intro b
    have hc : ¬ c = sep := by
      intro he
      exact h (by simp [he])
    have hcs : sep ∉ cs := fun hm => h (by simp [hm])
    simp only [List.cons_append, splitAll, if_neg hc, List.append_eq]
    rw [ih hcs b]

theorem pipe_not_mem_natToChars (n : Nat) : '|' ∉ natToChars n := by
  intro h
  exact isDigit_ne_pipe (natToChars_all_digits n '|' h) rfl

theorem slash_not_mem_natToChars (n : Nat) : '/' ∉ natToChars n := by
  intro h
  exact isDigit_ne_slash (natToChars_all_digits n '/' h) rfl

/-- A chunk string built by the chunker parses back to its components. -/
theorem parse_chunk_mk (seq total : Nat) (data : List Char) (h1 : 1 ≤ seq) (h2 : seq ≤ total) :
    parse_chunk (mkChunkStr seq total data)
      = some ⟨seq, total, data, mkChunkStr seq total data⟩ := by
  have hassoc : natToChars seq ++ '/' :: (natToChars total ++ '|' :: data)
      = (natToChars seq ++ '/' :: natToChars total) ++ '|' :: data := by
    simp
  have hnp1 : ('|' : Char) ∉ protocolTag := by decide
  have hnp2 : ('|' : Char) ∉ natToChars seq ++ '/' :: natToChars total := by
    intro hm
    rcases List.mem_append.1 hm with hm | hm
    · exact pipe_not_mem_natToChars seq hm
    · rcases List.mem_cons.1 hm with hm | hm
      · exact absurd hm (by decide)
      · exact pipe_not_mem_natToChars total hm
  have hsf2 : splitFirst '|' (natToChars seq ++ '/' :: (natToChars total ++ '|' :: data))
      = some (natToChars seq ++ '/' :: natToChars total, data) := by
    rw [hassoc]
    exact splitFirst_append hnp2 data
  have hsplit : splitMax2 '|' (mkChunkStr seq total data)
      = [protocolTag, natToChars seq ++ '/' :: natToChars total, data] := by
    unfold mkChunkStr
    simp [splitMax2, splitFirst_append hnp1, hsf2]
  have hslash : splitAll '/' (natToChars seq ++ '/' :: natToChars total)
      = [natToChars seq, natToChars total] := by
    rw [splitAll_append (slash_not_mem_natToChars seq),
      splitAll_no_sep (slash_not_mem_natToChars total)]
  have hcond : ¬ ((seq : Int) < 1 ∨ (seq : Int) > (total : Int)) := by
    push_neg
    constructor
    · exact_mod_cast h1
    · exact_mod_cast h2
  unfold parse_chunk
  rw [hsplit]
  simp [hslash, pyIntParse_natToChars, hcond]
  omega


/-! ### Shape of the chunker output -/

/-- The number of chunks `QRChunker.chunk` emits. -/
def chunkTotal (ch : QRChunker) (payload : List Nat) : Nat :=
  if (b64encode payload).length ≤ ch.max_data_size then 1
  else ((b64encode payload).length + ch.max_data_size - 1) / ch.max_data_size

/-- The 1-indexed `i`-th fragment of the base64 text. -/
def chunkFrag (ch : QRChunker) (payload : List Nat) (i : Nat) : List Char :=
  ((b64encode payload).drop ((i - 1) * ch.max_data_size)).take ch.max_data_size

theorem chunk_eq_map (ch : QRChunker) (payload : List Nat) :
    ch.chunk payload = (List.range (chunkTotal ch payload)).map
      (fun i => mkChunkStr (i + 1) (chunkTotal ch payload) (chunkFrag ch payload (i + 1))) := by
  unfold QRChunker.chunk chunkTotal chunkFrag
  by_cases hle : (b64encode payload).length ≤ ch.max_data_size
  · rw [if_pos hle, if_pos hle]
    have hr : List.range 1 = [0] := rfl
    rw [hr]
    simp [List.take_of_length_le hle]
  · rw [if_neg hle, if_neg hle]
    apply List.map_congr_left
    intro i _
    simp

theorem chunkTotal_pos (ch : QRChunker) (payload : List Nat) (hm : 0 < ch.max_data_size) :
    1 ≤ chunkTotal ch payload := by
  unfold chunkTotal
  by_cases hle : (b64encode payload).length ≤ ch.max_data_size
  · rw [if_pos hle]
  · rw [if_neg hle]
    rw [Nat.one_le_div_iff hm]
    omega

theorem b64_length_le_total_mul (ch : QRChunker) (payload : List Nat)
    (hm : 0 < ch.max_data_size) :
    (b64encode payload).length ≤ chunkTotal ch payload * ch.max_data_size := by
  unfold chunkTotal
  set L := (b64encode payload).length with hL
  set m := ch.max_data_size with hmdef
  by_cases hle : L ≤ m
  · rw [if_pos hle]
    omega
  · rw [if_neg hle]
    have hdm := Nat.div_add_mod (L + m - 1) m
    have hr : (L + m - 1) % m < m := Nat.mod_lt _ hm
    have hc : (L + m - 1) / m * m = m * ((L + m - 1) / m) := Nat.mul_comm _ _
    omega

/-- Concatenating the `m`-sized slices of `L` recovers `L`. -/
theorem flatten_slices (m : Nat) : ∀ (T : Nat) (L : List Char), L.length ≤ T * m →
    ((List.range T).map (fun i => (L.drop (i * m)).take m)).flatten = L := by
  intro T
  induction T with
  | zero =>
    intro L hL
    have h0 : L = [] := List.eq_nil_of_length_eq_zero (by omega)
    subst h0
    rfl
  | succ T ih =>
    intro L hL
    rw [List.range_succ_eq_map]
    simp only [List.map_cons, List.map_map, List.flatten_cons]
    have hhead : (L.drop (0 * m)).take m = L.take m := by
      simp
    have hfun : ((fun i => (L.drop (i * m)).take m) ∘ Nat.succ)
        = fun i => ((L.drop m).drop (i * m)).take m := by
      funext i
      simp only [Function.comp]
      have he : List.drop (Nat.succ i * m) L = List.drop (i * m) (List.drop m L) := by
        rw [List.drop_drop]
        congr 1
        rw [Nat.succ_mul, Nat.mul_comm i m]
        omega
      rw [he]
    rw [hhead, hfun]
    have hlen : (L.drop m).length ≤ T * m := by
      rw [List.length_drop]
      have : (T + 1) * m = T * m + m := by ring
      omega
    rw [ih (L.drop m) hlen, List.take_append_drop]

/-! ### Dictionary and reassembly lemmas -/

theorem dictGet?_insert (k : Nat) (v : List Char) :
    ∀ (l : List (Nat × List Char)) (j : Nat),
      dictGet? j (dictInsert k v l) = if j = k then some v else dictGet? j l := by
  intro l
  induction l with
  | nil =>
    intro j
    by_cases hj : j = k <;> simp [dictInsert, dictGet?, hj]
  | cons p rest ih =>
    intro j
    obtain ⟨k', v'⟩ := p
    by_cases hkk : k = k'
    · subst hkk
      by_cases hj : j = k <;> simp [dictInsert, dictGet?, hj]
    · simp only [dictInsert, if_neg hkk, dictGet?]
      by_cases hj : j = k'
      · subst hj
        have hjk : ¬ j = k := fun h => hkk h.symm
        simp [hjk]
      · simp [hj, ih j]

theorem dictInsert_length (k : Nat) (v : List Char) :
    ∀ (l : List (Nat × List Char)),
      (dictInsert k v l).length
        = if (dictGet? k l).isSome then l.length else l.length + 1 := by
  intro l
  induction l with
  | nil => simp [dictInsert, dictGet?]
  | cons p rest ih =>
    obtain ⟨k', v'⟩ := p
    by_cases hkk : k = k'
    · subst hkk
      simp [dictInsert, dictGet?]
    · simp only [dictInsert, if_neg hkk, dictGet?, List.length_cons, ih]
      by_cases hs : (dictGet? k rest).isSome <;> simp [hkk, hs]

theorem collectParts_all (chunks : List (Nat × List Char)) (f : Nat → List Char) :
    ∀ l : List Nat, (∀ j ∈ l, dictGet? j chunks = some (f j)) →
      collectParts chunks l = some (l.map f) := by
  intro l
  induction l with
  | nil => intro _; rfl
  | cons i is ih =>
    intro h
    have hi : dictGet? i chunks = some (f i) := h i (by simp)
    have his : ∀ j ∈ is, dictGet? j chunks = some (f j) := fun j hj => h j (by simp [hj])
    simp [collectParts, hi, ih his]


/-! ### The reassembler invariant and its preservation -/

/-- State of a reassembler that has accepted exactly the sequence numbers in
`S` (all within `1..T`, fragment contents given by `frag`) and is not yet
complete. -/
def ReInv (T : Nat) (frag : Nat → List Char) (S : Finset Nat) (st : QRReassembler) : Prop :=
  st.complete = false ∧
  st.total = (if S = ∅ then none else some T) ∧
  st.chunks.length = S.card ∧
  (∀ i, dictGet? i st.chunks = if i ∈ S then some (frag i) else none) ∧
  S ⊆ Finset.Icc 1 T ∧ S.card < T

theorem ReInv_reset (T : Nat) (frag : Nat → List Char) (hT : 1 ≤ T) :
    ReInv T frag ∅ QRReassembler.reset := by
  refine ⟨rfl, by simp [QRReassembler.reset], by simp [QRReassembler.reset], ?_, by simp, ?_⟩
  · intro i
    simp [QRReassembler.reset, dictGet?]
  · simpa using hT

theorem card_Icc_one (T : Nat) : (Finset.Icc 1 T).card = T := by
  rw [Nat.card_Icc]
  omega

/-- A valid chunk whose `total` agrees routes `add_chunk` to `store`. -/
theorem add_chunk_accept (T : Nat) (frag : Nat → List Char) (S : Finset Nat)
    (st : QRReassembler) (hInv : ReInv T frag S st)
    (c : List Char) (info : ChunkInfo)
    (hp : parse_chunk c = some info) (htot : info.total = T) :
    st.add_chunk c = QRReassembler.store ⟨st.chunks, some T, false⟩ info := by
  obtain ⟨hc, htotal, hlen, hget, hsub, hcard⟩ := hInv
  have hst : st = ⟨st.chunks, st.total, st.complete⟩ := rfl
  unfold QRReassembler.add_chunk
  rw [hc, hp, htotal]
  by_cases hS : S = ∅
  · rw [if_pos hS]
    simp [htot]
  · rw [if_neg hS]
    simp only [Bool.false_eq_true, if_false]
    have hne : ¬ T ≠ info.total := by simp [htot]
    rw [if_neg hne]
    have hst2 : st = ⟨st.chunks, some T, false⟩ := by
      cases st with
      | mk chunks total complete =>
        simp only at hc htotal
        rw [htotal, if_neg hS] at *
        simp [hc, htotal]
    rw [hst2]

/-- Effect of `store` on an invariant-satisfying state. -/
theorem store_step (T : Nat) (frag : Nat → List Char) (payload : List Nat) (S : Finset Nat)
    (st : QRReassembler) (hInv : ReInv T frag S st)
    (info : ChunkInfo) (hseq1 : 1 ≤ info.sequence) (hseq2 : info.sequence ≤ T)
    (hdata : info.data = frag info.sequence)
    (hdec : b64decode (((List.range' 1 T).map frag).flatten) = some payload) :
    (insert info.sequence S ≠ Finset.Icc 1 T →
      ∃ st', QRReassembler.store ⟨st.chunks, some T, false⟩ info = (st', .ok none) ∧
        ReInv T frag (insert info.sequence S) st')
    ∧ (insert info.sequence S = Finset.Icc 1 T →
      ∃ st', QRReassembler.store ⟨st.chunks, some T, false⟩ info
          = (st', .ok (some payload)) ∧
        st'.complete = true ∧ st'.chunks.length = T ∧ st'.total = some T) := by
  obtain ⟨hc, htotal, hlen, hget, hsub, hcard⟩ := hInv
  set i := info.sequence with hidef
  set chunks2 := dictInsert i info.data st.chunks with hc2
  have hmemIcc : i ∈ Finset.Icc 1 T := Finset.mem_Icc.2 ⟨hseq1, hseq2⟩
  have hsub' : insert i S ⊆ Finset.Icc 1 T := Finset.insert_subset hmemIcc hsub
  have hlen2 : chunks2.length = (insert i S).card := by
    rw [hc2, dictInsert_length, hget i]
    by_cases hiS : i ∈ S
    · rw [if_pos hiS, Finset.card_insert_of_mem hiS, ← hlen]
      simp
    · rw [if_neg hiS, Finset.card_insert_of_not_mem hiS, ← hlen]
      simp
  have hget2 : ∀ j, dictGet? j chunks2 = if j ∈ insert i S then some (frag j) else none := by
    intro j
    rw [hc2, dictGet?_insert]
    by_cases hj : j = i
    · subst hj
      simp [hdata]
    · rw [if_neg hj, hget j]
      by_cases hjS : j ∈ S
      · simp [hjS, Finset.mem_insert, hj]
      · simp [hjS, Finset.mem_insert, hj]
  have hcardle : (insert i S).card ≤ T := by
    have := Finset.card_le_card hsub'
    rwa [card_Icc_one] at this
  have hkey : chunks2.length = T ↔ insert i S = Finset.Icc 1 T := by
    constructor
    · intro hl
      apply Finset.eq_of_subset_of_card_le hsub'
      rw [card_Icc_one, ← hl, hlen2]
    · intro he
      rw [hlen2, he, card_Icc_one]
  constructor
  · intro hne
    have hlne : ¬ (chunks2.length = T) := fun h => hne (hkey.1 h)
    refine ⟨⟨chunks2, some T, false⟩, ?_, ?_⟩
    · unfold QRReassembler.store
      simp only [hc2]
      rw [if_neg (by simpa using hlne)]
    · refine ⟨rfl, by simp [Finset.insert_ne_empty], hlen2, hget2, hsub', ?_⟩
      have hne2 : (insert i S).card ≠ T := by
        intro h
        exact hlne (hlen2.trans h)
      omega
  · intro he
    have hl : chunks2.length = T := hkey.2 he
    have hre : QRReassembler.reassemble ⟨chunks2, some T, true⟩ = some payload := by
      unfold QRReassembler.reassemble
      simp only
      rw [collectParts_all chunks2 frag (List.range' 1 T) ?_]
      · exact hdec
      · intro j hj
        have hjb : 1 ≤ j ∧ j < 1 + T := List.mem_range'_1.1 hj
        have hjmem : j ∈ insert i S := by
          rw [he]
          exact Finset.mem_Icc.2 ⟨hjb.1, by omega⟩
        rw [hget2 j, if_pos hjmem]
    refine ⟨⟨chunks2, some T, true⟩, ?_, rfl, hl, rfl⟩
    unfold QRReassembler.store
    simp only [hc2]
    rw [if_pos (by simpa using hl)]
    rw [hc2] at hre
    rw [hre]

/-- Once complete, `add_chunk` is inert. -/
theorem add_chunk_of_complete (st : QRReassembler) (h : st.complete = true)
    (c : List Char) : st.add_chunk c = (st, .ok none) := by
  unfold QRReassembler.add_chunk
  rw [h]
  simp

theorem feedAll_frozen (st : QRReassembler) (h : st.complete = true) :
    ∀ cs, feedAll st cs = (st, cs.map fun _ => .ok none) := by
  intro cs
  induction cs with
  | nil => rfl
  | cons c cs ih =>
    simp only [feedAll, add_chunk_of_complete st h c, ih, List.map_cons]

theorem getD_map_const {α β : Type} (y : β) (d : β) :
    ∀ (l : List α) (j : Nat), j < l.length → (l.map (fun _ => y)).getD j d = y := by
  intro l
  induction l with
  | nil =>
    intro j hj
    exact absurd hj (by simp)
  | cons x xs ih =>
    intro j hj
    cases j with
    | zero => rfl
    | succ j' =>
      simp only [List.map_cons, List.getD_cons_succ]
      exact ih j' (by simpa using hj)

theorem toFinset_subset_Icc (T : Nat) (X : List Nat) (h : ∀ x ∈ X, 1 ≤ x ∧ x ≤ T) :
    X.toFinset ⊆ Finset.Icc 1 T := by
  intro x hx
  have := h x (List.mem_toFinset.1 hx)
  exact Finset.mem_Icc.2 this


/-- Behaviour of a full feeding run from an invariant state: the received
count is always the number of distinct sequence numbers seen, and the
decoded payload is returned exactly at the feed that first covers `1..T`. -/
theorem feedAll_run (T : Nat) (frag : Nat → List Char) (payload : List Nat)
    (chunkat : Nat → List Char)
    (hparse : ∀ i, 1 ≤ i → i ≤ T →
      parse_chunk (chunkat i) = some ⟨i, T, frag i, chunkat i⟩)
    (hdec : b64decode (((List.range' 1 T).map frag).flatten) = some payload) :
    ∀ (feed : List Nat) (S : Finset Nat) (st : QRReassembler),
      ReInv T frag S st →
      (∀ i ∈ feed, 1 ≤ i ∧ i ≤ T) →
      ((∀ k, k ≤ feed.length →
          ((feedAll st ((feed.take k).map chunkat)).1).chunks.length
            = (S ∪ (feed.take k).toFinset).card)
        ∧ (∀ j, j < feed.length →
          (feedAll st (feed.map chunkat)).2.getD j (.ok none)
            = if S ∪ (feed.take (j + 1)).toFinset = Finset.Icc 1 T
                  ∧ ¬ (S ∪ (feed.take j).toFinset = Finset.Icc 1 T)
              then .ok (some payload) else .ok none)) := by
  intro feed
  induction feed with
  | nil =>
    intro S st hInv hmem
    constructor
    · intro k hk
      have hk0 : k = 0 := by simpa using hk
      subst hk0
      simp [feedAll, hInv.2.2.1]
    · intro j hj
      exact absurd hj (by simp)
  | cons i rest ih =>
    intro S st hInv hmem
    have hi := hmem i (by simp)
    have hp := hparse i hi.1 hi.2
    have hacc := add_chunk_accept T frag S st hInv (chunkat i) ⟨i, T, frag i, chunkat i⟩ hp rfl
    have hstep := store_step T frag payload S st hInv ⟨i, T, frag i, chunkat i⟩ hi.1 hi.2 rfl hdec
    have hsetX : ∀ X : List Nat, S ∪ (i :: X).toFinset = insert i S ∪ X.toFinset := by
      intro X
      rw [List.toFinset_cons, Finset.union_insert, Finset.insert_union]
    have hmem' : ∀ x ∈ rest, 1 ≤ x ∧ x ≤ T := fun x hx => hmem x (by simp [hx])
    by_cases hfull : insert i S = Finset.Icc 1 T
    · obtain ⟨st', hstore, hcomp, hlenT, htotT⟩ := hstep.2 hfull
      have hfeed1 : st.add_chunk (chunkat i) = (st', .ok (some payload)) := by
        rw [hacc, hstore]
      have hU : ∀ X : List Nat, (∀ x ∈ X, 1 ≤ x ∧ x ≤ T) →
          insert i S ∪ X.toFinset = Finset.Icc 1 T := by
        intro X hX
        apply Finset.Subset.antisymm
        · exact Finset.union_subset (hfull ▸ Finset.Subset.refl _) (toFinset_subset_Icc T X hX)
        · rw [← hfull]
          exact Finset.subset_union_left
      have hSneq : ¬ (S = Finset.Icc 1 T) := by
        intro h
        have hcard := hInv.2.2.2.2.2
        rw [h, card_Icc_one] at hcard
        omega
      constructor
      · intro k hk
        cases k with
        | zero =>
          simp [feedAll, hInv.2.2.1]
        | succ k' =>
          have hbound : ∀ x ∈ rest.take k', 1 ≤ x ∧ x ≤ T := fun x hx =>
            hmem' x (List.mem_of_mem_take hx)
          rw [List.take_succ_cons]
          have hstate : (feedAll st ((i :: rest.take k').map chunkat)).1 = st' := by
            simp only [List.map_cons, feedAll, hfeed1]
            rw [feedAll_frozen st' hcomp ((rest.take k').map chunkat)]
          rw [hstate, hlenT, hsetX, hU (rest.take k') hbound, card_Icc_one]
      · intro j hj
        cases j with
        | zero =>
          have hout : (feedAll st ((i :: rest).map chunkat)).2.getD 0 (.ok none)
              = .ok (some payload) := by
            simp only [List.map_cons, feedAll, hfeed1]
            rw [feedAll_frozen st' hcomp (rest.map chunkat)]
            rfl
          rw [hout]
          have hc1 : S ∪ ((i :: rest).take 1).toFinset = Finset.Icc 1 T := by
            rw [List.take_succ_cons, List.take_zero, hsetX]
            simpa using hfull
          have hc2 : ¬ (S ∪ ((i :: rest).take 0).toFinset = Finset.Icc 1 T) := by
            rw [List.take_zero]
            simpa using hSneq
          rw [if_pos ⟨hc1, hc2⟩]
        | succ j' =>
          have hjlen : j' < rest.length := by simpa using hj
          have hout : (feedAll st ((i :: rest).map chunkat)).2.getD (j' + 1) (.ok none)
              = .ok none := by
            simp only [List.map_cons, feedAll, hfeed1]
            rw [feedAll_frozen st' hcomp (rest.map chunkat)]
            simp only [List.getD_cons_succ]
            exact getD_map_const _ _ (rest.map chunkat) j' (by simpa using hjlen)
          rw [hout]
          have hcond : S ∪ ((i :: rest).take (j' + 1)).toFinset = Finset.Icc 1 T := by
            rw [List.take_succ_cons, hsetX]
            exact hU (rest.take j') (fun x hx => hmem' x (List.mem_of_mem_take hx))
          rw [if_neg (fun h => h.2 hcond)]
    · obtain ⟨st', hstore, hInv'⟩ := hstep.1 hfull
      have hfeed1 : st.add_chunk (chunkat i) = (st', .ok none) := by
        rw [hacc, hstore]
      have ihall := ih (insert i S) st' hInv' hmem'
      constructor
      · intro k hk
        cases k with
        | zero =>
          simp [feedAll, hInv.2.2.1]
        | succ k' =>
          rw [List.take_succ_cons]
          have hstate : (feedAll st ((i :: rest.take k').map chunkat)).1
              = (feedAll st' ((rest.take k').map chunkat)).1 := by
            simp only [List.map_cons, feedAll, hfeed1]
          rw [hstate, ihall.1 k' (by simpa using hk), hsetX]
      · intro j hj
        cases j with
        | zero =>
          have hout : (feedAll st ((i :: rest).map chunkat)).2.getD 0 (.ok none)
              = .ok none := by
            simp only [List.map_cons, feedAll, hfeed1]
            rfl
          rw [hout]
          have hc1 : ¬ (S ∪ ((i :: rest).take 1).toFinset = Finset.Icc 1 T) := by
            rw [List.take_succ_cons, List.take_zero, hsetX]
            simpa using hfull
          rw [if_neg (fun h => hc1 h.1)]
        | succ j' =>
          have hjlen : j' < rest.length := by simpa using hj
          have hout : (feedAll st ((i :: rest).map chunkat)).2.getD (j' + 1) (.ok none)
              = (feedAll st' (rest.map chunkat)).2.getD j' (.ok none) := by
            simp only [List.map_cons, feedAll, hfeed1]
            rfl
          rw [hout, ihall.2 j' hjlen]
          rw [List.take_succ_cons, List.take_succ_cons, hsetX, hsetX]


/-! ### Bridging the chunker output to the feeding run -/

theorem chunk_length_eq (ch : QRChunker) (payload : List Nat) :
    (ch.chunk payload).length = chunkTotal ch payload := by
  rw [chunk_eq_map]
  simp

theorem chunk_getD (ch : QRChunker) (payload : List Nat) (i : Nat)
    (h1 : 1 ≤ i) (h2 : i ≤ chunkTotal ch payload) :
    (ch.chunk payload).getD (i - 1) []
      = mkChunkStr i (chunkTotal ch payload) (chunkFrag ch payload i) := by
  have hq : (ch.chunk payload)[i - 1]?
      = some (mkChunkStr i (chunkTotal ch payload) (chunkFrag ch payload i)) := by
    rw [chunk_eq_map, List.getElem?_map, List.getElem?_range (by omega)]
    simp only [Option.map_some']
    rw [Nat.sub_add_cancel h1]
  rw [List.getD_eq_getElem?_getD, hq]
  rfl

theorem chunk_decode (ch : QRChunker) (payload : List Nat)
    (hm : 0 < ch.max_data_size) (hb : ∀ x ∈ payload, x < 256) :
    b64decode (((List.range' 1 (chunkTotal ch payload)).map (chunkFrag ch payload)).flatten)
      = some payload := by
  have hmap : (List.range' 1 (chunkTotal ch payload)).map (chunkFrag ch payload)
      = (List.range (chunkTotal ch payload)).map
          (fun i => ((b64encode payload).drop (i * ch.max_data_size)).take ch.max_data_size) := by
    rw [List.range'_eq_map_range, List.map_map]
    apply List.map_congr_left
    intro i _
    simp only [Function.comp, chunkFrag, Nat.add_sub_cancel_left]
  rw [hmap, flatten_slices ch.max_data_size _ _ (b64_length_le_total_mul ch payload hm)]
  exact b64decode_b64encode payload hb

theorem chunkat_parse (ch : QRChunker) (payload : List Nat) (i : Nat)
    (h1 : 1 ≤ i) (h2 : i ≤ chunkTotal ch payload) :
    parse_chunk ((ch.chunk payload).getD (i - 1) [])
      = some ⟨i, chunkTotal ch payload, chunkFrag ch payload i,
          (ch.chunk payload).getD (i - 1) []⟩ := by
  rw [chunk_getD ch payload i h1 h2]
  exact parse_chunk_mk i (chunkTotal ch payload) _ h1 h2

theorem toFinset_range'_one (T : Nat) : (List.range' 1 T).toFinset = Finset.Icc 1 T := by
  ext x
  simp only [List.mem_toFinset, List.mem_range'_1, Finset.mem_Icc]
  omega

theorem take_range'_pred (T : Nat) (hT : 1 ≤ T) :
    (List.range' 1 T).take (T - 1) = List.range' 1 (T - 1) := by
  have hsplit : List.range' 1 (T - 1) ++ List.range' (1 + (T - 1)) 1 = List.range' 1 T := by
    rw [List.range'_append_1]
    congr 1
    omega
  have hlen : (List.range' 1 (T - 1)).length = T - 1 := by simp
  calc (List.range' 1 T).take (T - 1)
      = (List.range' 1 (T - 1) ++ List.range' (1 + (T - 1)) 1).take (T - 1) := by rw [hsplit]
    _ = List.range' 1 (T - 1) := List.take_left' hlen

theorem feedAll_length : ∀ (cs : List (List Char)) (st : QRReassembler),
    (feedAll st cs).2.length = cs.length := by
  intro cs
  induction cs with
  | nil =>
    intro st
    rfl
  | cons c cs ih =>
    intro st
    simp only [feedAll, List.length_cons, ih]

theorem chunk_eq_map_chunkat (ch : QRChunker) (payload : List Nat) :
    ch.chunk payload = (List.range' 1 (chunkTotal ch payload)).map
      (fun i => (ch.chunk payload).getD (i - 1) []) := by
  apply List.ext_getElem
  · simp [chunk_length_eq]
  · intro j hj hj2
    have hjT : j < chunkTotal ch payload := by
      rw [chunk_length_eq] at hj
      exact hj
    rw [List.getElem_map]
    rw [List.getElem_range']
    have he : 1 + 1 * j - 1 = j := by omega
    rw [he, List.getD_eq_getElem _ _ hj]


theorem progress_fst (st : QRReassembler) : (st.progress).1 = st.chunks.length := by
  unfold QRReassembler.progress
  cases st.total <;> rfl

/-- C3: for every byte string `b` (the empty string included) and every chunk
size `s ≥ 64`, feeding all chunks produced by `QRChunker(s).chunk(b)` in order
into a fresh `QRReassembler` yields exactly `b`: the last `add_chunk` call
returns the base64-decoded concatenation of the fragments, which equals the
original payload. -/
theorem c3_chunk_roundtrip (payload : List Nat) (s : Nat)
    (hs : 64 ≤ s) (hb : ∀ x ∈ payload, x < 256) :
    (feedAll QRReassembler.reset (QRChunker.chunk ⟨s⟩ payload)).2.getLast?
      = some (.ok (some payload)) := by
  set ch : QRChunker := ⟨s⟩ with hch
  have hm : 0 < ch.max_data_size := by
    show 0 < s - HEADER_OVERHEAD
    unfold HEADER_OVERHEAD
    omega
  have hT : 1 ≤ chunkTotal ch payload := chunkTotal_pos ch payload hm
  have hmem1 : ∀ i ∈ List.range' 1 (chunkTotal ch payload),
      1 ≤ i ∧ i ≤ chunkTotal ch payload := by
    intro i hi
    have hi2 := List.mem_range'_1.1 hi
    omega
  have hrun := feedAll_run (chunkTotal ch payload) (chunkFrag ch payload) payload
    (fun i => (ch.chunk payload).getD (i - 1) [])
    (fun i h1 h2 => chunkat_parse ch payload i h1 h2)
    (chunk_decode ch payload hm hb)
    (List.range' 1 (chunkTotal ch payload)) ∅ QRReassembler.reset
    (ReInv_reset _ _ hT) hmem1
  have hout := hrun.2 (chunkTotal ch payload - 1) (by simp; omega)
  rw [show chunkTotal ch payload - 1 + 1 = chunkTotal ch payload from by omega] at hout
  rw [List.take_of_length_le (by simp)] at hout
  rw [take_range'_pred _ hT] at hout
  rw [toFinset_range'_one, toFinset_range'_one] at hout
  rw [Finset.empty_union, Finset.empty_union] at hout
  have hneq : ¬ (Finset.Icc 1 (chunkTotal ch payload - 1)
      = Finset.Icc 1 (chunkTotal ch payload)) := by
    intro h
    have h1 : chunkTotal ch payload ∈ Finset.Icc 1 (chunkTotal ch payload) :=
      Finset.mem_Icc.2 ⟨hT, le_refl _⟩
    rw [← h] at h1
    have h2 := Finset.mem_Icc.1 h1
    omega
  rw [if_pos ⟨rfl, hneq⟩] at hout
  rw [← chunk_eq_map_chunkat] at hout
  have hlen : (feedAll QRReassembler.reset (ch.chunk payload)).2.length
      = chunkTotal ch payload := by
    rw [feedAll_length, chunk_length_eq]
  have hbnd : chunkTotal ch payload - 1
      < (feedAll QRReassembler.reset (ch.chunk payload)).2.length := by
    rw [hlen]
    omega
  rw [List.getD_eq_getElem _ (Except.ok none) hbnd] at hout
  rw [List.getLast?_eq_getElem?, hlen, List.getElem?_eq_getElem hbnd, hout]

/-- C8: for every chunk set produced by `chunk()` and every feeding order drawn
from it (arbitrary permutation plus duplicates, each chunk appearing at least
once), a fresh reassembler's progress count after any number of feeds equals
the number of distinct sequence numbers seen, the payload is returned exactly
at the feed where the last distinct sequence number first arrives (and it is
the same payload regardless of the order), and such a completing feed exists. -/
theorem c8_order_independence (payload : List Nat) (s : Nat) (feed : List Nat)
    (hs : 64 ≤ s) (hb : ∀ x ∈ payload, x < 256)
    (hbound : ∀ i ∈ feed, 1 ≤ i ∧ i ≤ (QRChunker.chunk ⟨s⟩ payload).length)
    (hcover : ∀ i, 1 ≤ i → i ≤ (QRChunker.chunk ⟨s⟩ payload).length → i ∈ feed) :
    (∀ k, k ≤ feed.length →
        ((feedAll QRReassembler.reset ((feed.take k).map
            (fun i => (QRChunker.chunk ⟨s⟩ payload).getD (i - 1) []))).1).progress.1
          = ((feed.take k).toFinset).card)
    ∧ (∀ j, j < feed.length →
        (feedAll QRReassembler.reset (feed.map
            (fun i => (QRChunker.chunk ⟨s⟩ payload).getD (i - 1) []))).2.getD j (.ok none)
          = if (feed.take (j + 1)).toFinset
                  = Finset.Icc 1 (QRChunker.chunk ⟨s⟩ payload).length
                ∧ ¬ ((feed.take j).toFinset
                  = Finset.Icc 1 (QRChunker.chunk ⟨s⟩ payload).length)
            then .ok (some payload) else .ok none)
    ∧ (∃ j, j < feed.length ∧
        (feedAll QRReassembler.reset (feed.map
            (fun i => (QRChunker.chunk ⟨s⟩ payload).getD (i - 1) []))).2.getD j (.ok none)
          = .ok (some payload)) := by
  set ch : QRChunker := ⟨s⟩ with hch
  have hm : 0 < ch.max_data_size := by
    show 0 < s - HEADER_OVERHEAD
    unfold HEADER_OVERHEAD
    omega
  have hT : 1 ≤ chunkTotal ch payload := chunkTotal_pos ch payload hm
  have hlenT := chunk_length_eq ch payload
  have hbound' : ∀ i ∈ feed, 1 ≤ i ∧ i ≤ chunkTotal ch payload := by
    intro i hi
    have := hbound i hi
    omega
  have hrun := feedAll_run (chunkTotal ch payload) (chunkFrag ch payload) payload
    (fun i => (ch.chunk payload).getD (i - 1) [])
    (fun i h1 h2 => chunkat_parse ch payload i h1 h2)
    (chunk_decode ch payload hm hb)
    feed ∅ QRReassembler.reset (ReInv_reset _ _ hT) hbound'
  refine ⟨?_, ?_, ?_⟩
  · intro k hk
    rw [progress_fst, hrun.1 k hk, Finset.empty_union]
  · intro j hj
    rw [hrun.2 j hj, Finset.empty_union, Finset.empty_union, hlenT]
  · have hPlen : (feed.take feed.length).toFinset
        = Finset.Icc 1 (chunkTotal ch payload) := by
      rw [List.take_of_length_le (le_refl _)]
      apply Finset.Subset.antisymm
      · exact toFinset_subset_Icc _ feed hbound'
      · intro x hx
        have hx2 := Finset.mem_Icc.1 hx
        exact List.mem_toFinset.2 (hcover x hx2.1 (by omega))
    have hex : ∃ k, (feed.take k).toFinset = Finset.Icc 1 (chunkTotal ch payload) :=
      ⟨feed.length, hPlen⟩
    have hk0 := Nat.find_spec hex
    have hk0le : Nat.find hex ≤ feed.length := Nat.find_min' hex hPlen
    have hk0pos : 1 ≤ Nat.find hex := by
      rcases Nat.eq_zero_or_pos (Nat.find hex) with h0 | h1
      · exfalso
        rw [h0] at hk0
        simp only [List.take_zero, List.toFinset_nil] at hk0
        have h1 : (1 : Nat) ∈ Finset.Icc 1 (chunkTotal ch payload) :=
          Finset.mem_Icc.2 ⟨le_refl _, hT⟩
        rw [← hk0] at h1
        exact absurd h1 (Finset.not_mem_empty 1)
      · exact h1
    refine ⟨Nat.find hex - 1, by omega, ?_⟩
    have hmin : ¬ ((feed.take (Nat.find hex - 1)).toFinset
        = Finset.Icc 1 (chunkTotal ch payload)) :=
      Nat.find_min hex (by omega)
    have hout := hrun.2 (Nat.find hex - 1) (by omega)
    rw [show Nat.find hex - 1 + 1 = Nat.find hex from by omega] at hout
    rw [hout, Finset.empty_union, Finset.empty_union, if_pos ⟨hk0, hmin⟩]

/-- C9: a chunk string that `add_chunk` rejects — unparsable (wrong tag, wrong
part count, malformed integers, `sequence < 1`, `sequence > total`) or carrying
a `total` that disagrees with the one already locked in — returns `None` and
leaves the reassembler state (fragments, total, completion flag, and with them
`progress` and `missing_sequences`) exactly unchanged. -/
theorem c9_reject_no_mutation (st : QRReassembler) (c : List Char)
    (hrej : parse_chunk c = none
      ∨ ∃ info t, parse_chunk c = some info ∧ st.total = some t ∧ info.total ≠ t) :
    st.add_chunk c = (st, .ok none) := by
  by_cases hc : st.complete = true
  · exact add_chunk_of_complete st hc c
  · have hc' : st.complete = false := by
      cases hb : st.complete
      · rfl
      · exact absurd hb hc
    unfold QRReassembler.add_chunk
    rw [hc']
    simp only [Bool.false_eq_true, if_false]
    rcases hrej with hp | ⟨info, t, hp, ht, hne⟩
    · rw [hp]
    · rw [hp, ht]
      show (if t ≠ info.total then (st, Except.ok none)
        else QRReassembler.store st info) = (st, Except.ok none)
      rw [if_pos (Ne.symm hne)]

/-- Witness for C3 at the empty payload and the minimum chunk size. -/
theorem c3_chunk_roundtrip_witness :
    (feedAll QRReassembler.reset (QRChunker.chunk ⟨64⟩ [])).2.getLast?
      = some (.ok (some [])) :=
  c3_chunk_roundtrip [] 64 (by decide) (by decide)

/-- Witness for C9 on a concrete garbage chunk. -/
theorem c9_reject_no_mutation_witness :
    QRReassembler.add_chunk QRReassembler.reset ['z'] = (QRReassembler.reset, .ok none) :=
  c9_reject_no_mutation QRReassembler.reset ['z'] (Or.inl (by decide))


/-- Witness for C8: a one-chunk payload fed twice (a duplicate feed). -/
theorem c8_order_independence_witness :
    (∀ k, k ≤ ([1, 1] : List Nat).length →
        ((feedAll QRReassembler.reset ((([1, 1] : List Nat).take k).map
            (fun i => (QRChunker.chunk ⟨64⟩ [1, 2, 3]).getD (i - 1) []))).1).progress.1
          = ((([1, 1] : List Nat).take k).toFinset).card)
    ∧ (∀ j, j < ([1, 1] : List Nat).length →
        (feedAll QRReassembler.reset (([1, 1] : List Nat).map
            (fun i => (QRChunker.chunk ⟨64⟩ [1, 2, 3]).getD (i - 1) []))).2.getD j (.ok none)
          = if (([1, 1] : List Nat).take (j + 1)).toFinset
                  = Finset.Icc 1 (QRChunker.chunk ⟨64⟩ [1, 2, 3]).length
                ∧ ¬ ((([1, 1] : List Nat).take j).toFinset
                  = Finset.Icc 1 (QRChunker.chunk ⟨64⟩ [1, 2, 3]).length)
            then .ok (some [1, 2, 3]) else .ok none)
    ∧ (∃ j, j < ([1, 1] : List Nat).length ∧
        (feedAll QRReassembler.reset (([1, 1] : List Nat).map
            (fun i => (QRChunker.chunk ⟨64⟩ [1, 2, 3]).getD (i - 1) []))).2.getD j (.ok none)
          = .ok (some [1, 2, 3])) :=
  c8_order_independence [1, 2, 3] 64 [1, 1] (by decide) (by decide) (by decide)
    (by
      intro i h1 h2
      have hlen : (QRChunker.chunk ⟨64⟩ [1, 2, 3]).length = 1 := by decide
      rw [hlen] at h2
      interval_cases i
      decide)

/-! ### Chunk length bounds (C4) -/

theorem mkChunkStr_length (seq total : Nat) (data : List Char) :
    (mkChunkStr seq total data).length
      = 7 + (natToChars seq).length + (natToChars total).length + data.length := by
  unfold mkChunkStr protocolTag
  simp only [List.length_append, List.length_cons, List.length_nil]
  omega

/-- C4 fails on the code: at `max_chunk_size = 64` a 33-megabyte payload
produces 10^6 chunks, and the millionth chunk string is 65 characters long —
the fixed 20-character header allowance cannot absorb seven-digit sequence
numbers. -/
theorem c4_counterexample :
    ¬ (∀ c ∈ QRChunker.chunk ⟨64⟩ (List.replicate 33000000 0), c.length ≤ 64) := by
  intro hall
  have hLlen : (b64encode (List.replicate 33000000 0)).length = 44000000 := by
    rw [b64encode_length, List.length_replicate]
  have hm : (⟨64⟩ : QRChunker).max_data_size = 44 := rfl
  have hT : chunkTotal ⟨64⟩ (List.replicate 33000000 0) = 1000000 := by
    unfold chunkTotal
    rw [hLlen, hm]
    norm_num
  have hchunklen : (QRChunker.chunk ⟨64⟩ (List.replicate 33000000 0)).length = 1000000 := by
    rw [chunk_length_eq, hT]
  have hc := chunk_getD ⟨64⟩ (List.replicate 33000000 0) 1000000 (by norm_num) (by rw [hT])
  have hbnd : 999999 < (QRChunker.chunk ⟨64⟩ (List.replicate 33000000 0)).length := by
    rw [hchunklen]
    norm_num
  have hmem : (QRChunker.chunk ⟨64⟩ (List.replicate 33000000 0)).getD (1000000 - 1) []
      ∈ QRChunker.chunk ⟨64⟩ (List.replicate 33000000 0) := by
    rw [show (1000000 : Nat) - 1 = 999999 from rfl]
    rw [List.getD_eq_getElem _ _ hbnd]
    exact List.getElem_mem _
  have hlen := hall _ hmem
  rw [hc, hT] at hlen
  have hfraglen : (chunkFrag ⟨64⟩ (List.replicate 33000000 0) 1000000).length = 44 := by
    unfold chunkFrag
    rw [hm, List.length_take, List.length_drop, hLlen]
    norm_num
  rw [mkChunkStr_length, hfraglen] at hlen
  have hd : (natToChars 1000000).length = 7 := by decide
  rw [hd] at hlen
  omega

/-- C4 amended: every emitted chunk string is at most `max_chunk_size`
characters long provided the chunk count stays below one million (sequence
numbers of at most six digits, as the source's 20-byte header allowance
anticipates). -/
theorem c4_amended_chunk_length (payload : List Nat) (s : Nat) (hs : 64 ≤ s)
    (htot : (QRChunker.chunk ⟨s⟩ payload).length ≤ 999999) :
    ∀ c ∈ QRChunker.chunk ⟨s⟩ payload, c.length ≤ s := by
  intro c hcmem
  rw [chunk_length_eq] at htot
  rw [chunk_eq_map] at hcmem
  obtain ⟨i, hi, rfl⟩ := List.mem_map.1 hcmem
  have hiT : i < chunkTotal ⟨s⟩ payload := List.mem_range.1 hi
  rw [mkChunkStr_length]
  have hd1 : (natToChars (i + 1)).length ≤ 6 := by
    apply natToChars_length_le 5
    norm_num
    omega
  have hd2 : (natToChars (chunkTotal ⟨s⟩ payload)).length ≤ 6 := by
    apply natToChars_length_le 5
    norm_num
    omega
  have hfrag : (chunkFrag ⟨s⟩ payload (i + 1)).length ≤ s - 20 := by
    unfold chunkFrag
    rw [List.length_take]
    have hms : (⟨s⟩ : QRChunker).max_data_size = s - 20 := rfl
    rw [hms]
    exact Nat.min_le_left _ _
  omega

/-- Witness for the amended C4 on a small concrete payload. -/
theorem c4_amended_chunk_length_witness :
    ((QRChunker.chunk ⟨64⟩ [1, 2, 3]).getD 0 []).length ≤ 64 :=
  c4_amended_chunk_length [1, 2, 3] 64 (by decide) (by decide)
    ((QRChunker.chunk ⟨64⟩ [1, 2, 3]).getD 0 []) (by decide)

/-!
### JSON serialization: `json.dumps(..., separators=(',', ':'))`

`signing.py` and `hmac.py` canonicalize `dict` payloads with
`json.dumps(payload, separators=(',', ':'), sort_keys=True)` before signing,
and `encryption.py` serializes with the same separators but the dict's own
key order.  `JVal` is the space of JSON-serializable Python values that
appear in packets: dicts with string keys (in insertion order), lists,
strings, ints, bools and `None`.  `jsonDumps` renders them exactly as
CPython's `json.dumps` does with those arguments: compact separators,
`ensure_ascii=True` escaping, and, when `sortKeys` is set, the key/value
pairs of each object emitted in code-point order of the keys.
-/

inductive JVal where
  | jnull : JVal
  | jbool : Bool → JVal
  | jnum : Int → JVal
  | jstr : List Char → JVal
  | jarr : List JVal → JVal
  | jobj : List (List Char × JVal) → JVal

/-- Left brace character, written by code point. -/
def lbrace : Char := Char.ofNat 123

/-- Right brace character, written by code point. -/
def rbrace : Char := Char.ofNat 125

/-- Four lowercase hex digits of `n % 65536`, as CPython prints `\uXXXX` escapes. -/
def hex4 (n : Nat) : List Char :=
  [Nat.digitChar (n / 4096 % 16), Nat.digitChar (n / 256 % 16),
   Nat.digitChar (n / 16 % 16), Nat.digitChar (n % 16)]

/-- The `ensure_ascii=True` escaping of a single character: `"` and backslash
get a backslash escape, control characters get their short names or `\u00xx`,
characters above `~` get `\uxxxx` (astral ones a surrogate pair), and every
other printable ASCII character stands for itself. -/
def jsonEscapeChar (c : Char) : List Char :=
  if c = '"' then ['\\', '"']
  else if c = '\\' then ['\\', '\\']
  else if c.toNat < 32 then
    if c.toNat = 8 then ['\\', 'b']
    else if c.toNat = 9 then ['\\', 't']
    else if c.toNat = 10 then ['\\', 'n']
    else if c.toNat = 12 then ['\\', 'f']
    else if c.toNat = 13 then ['\\', 'r']
    else '\\' :: 'u' :: hex4 c.toNat
  else if 127 < c.toNat then
    if c.toNat < 65536 then '\\' :: 'u' :: hex4 c.toNat
    else ('\\' :: 'u' :: hex4 (55296 + (c.toNat - 65536) / 1024)) ++
      ('\\' :: 'u' :: hex4 (56320 + (c.toNat - 65536) % 1024))
  else [c]

/-- Escape every character of a string body. -/
def jsonEscape : List Char → List Char
  | [] => []
  | c :: rest => jsonEscapeChar c ++ jsonEscape rest

/-- A JSON string literal: quote, escaped body, quote. -/
def jsonQuote (s : List Char) : List Char := '"' :: (jsonEscape s ++ ['"'])

/-- Python `str` comparison `a < b`: lexicographic by code point. -/
def strLt : List Char → List Char → Bool
  | [], [] => false
  | [], _ :: _ => true
  | _ :: _, [] => false
  | x :: xs, y :: ys =>
      if x.toNat < y.toNat then true
      else if y.toNat < x.toNat then false
      else strLt xs ys

/-- Insert a rendered key/value pair into a list sorted by key. -/
def sortedInsertKV (p : List Char × List Char) :
    List (List Char × List Char) → List (List Char × List Char)
  | [] => [p]
  | q :: rest => if strLt p.1 q.1 then p :: q :: rest else q :: sortedInsertKV p rest

/-- Insertion sort of rendered key/value pairs by key (`sort_keys=True`). -/
def sortKV : List (List Char × List Char) → List (List Char × List Char)
  | [] => []
  | p :: rest => sortedInsertKV p (sortKV rest)

/-- Join rendered elements with the compact `,` item separator. -/
def joinComma : List (List Char) → List Char
  | [] => []
  | [x] => x
  | x :: y :: rest => x ++ ',' :: joinComma (y :: rest)

/-- Decimal rendering of a Python `int`. -/
def intToChars (i : Int) : List Char :=
  if i < 0 then '-' :: natToChars (-i).toNat else natToChars i.toNat

mutual

/-- `json.dumps(v, separators=(',', ':'), sort_keys=sortKeys)`. -/
def jsonDumps (sortKeys : Bool) : JVal → List Char
  | .jnull => ['n', 'u', 'l', 'l']
  | .jbool true => ['t', 'r', 'u', 'e']
  | .jbool false => ['f', 'a', 'l', 's', 'e']
  | .jnum i => intToChars i
  | .jstr s => jsonQuote s
  | .jarr vs => '[' :: (joinComma (jsonArr sortKeys vs) ++ [']'])
  | .jobj fs =>
      lbrace ::
        (joinComma
          ((if sortKeys then sortKV (jsonFields sortKeys fs) else jsonFields sortKeys fs).map
            (fun kv => jsonQuote kv.1 ++ ':' :: kv.2)) ++ [rbrace])

/-- Rendered elements of a JSON array, in order. -/
def jsonArr (sortKeys : Bool) : List JVal → List (List Char)
  | [] => []
  | v :: vs => jsonDumps sortKeys v :: jsonArr sortKeys vs

/-- Keys paired with their rendered values, in dict insertion order. -/
def jsonFields (sortKeys : Bool) : List (List Char × JVal) → List (List Char × List Char)
  | [] => []
  | (k, v) :: fs => (k, jsonDumps sortKeys v) :: jsonFields sortKeys fs

end

/-!
### UTF-8 encoding

`payload.encode('utf-8')` before signing and HMAC, modelled byte for byte.
-/

/-- UTF-8 bytes of one code point. -/
def charUtf8 (c : Char) : List Nat :=
  if c.toNat < 128 then [c.toNat]
  else if c.toNat < 2048 then [192 + c.toNat / 64, 128 + c.toNat % 64]
  else if c.toNat < 65536 then
    [224 + c.toNat / 4096, 128 + c.toNat / 64 % 64, 128 + c.toNat % 64]
  else
    [240 + c.toNat / 262144, 128 + c.toNat / 4096 % 64,
     128 + c.toNat / 64 % 64, 128 + c.toNat % 64]

/-- `s.encode('utf-8')` for a Python `str`. -/
def utf8Encode : List Char → List Nat
  | [] => []
  | c :: rest => charUtf8 c ++ utf8Encode rest

theorem utf8Encode_append (a b : List Char) :
    utf8Encode (a ++ b) = utf8Encode a ++ utf8Encode b := by
  induction a with
  | nil => rfl
  | cons c rest ih => simp [utf8Encode, ih]

/-!
### Python dict operations (string keys, insertion order)
-/

/-- `d.get(k)` / `d[k]` lookup on a string-keyed dict. -/
def jdictGet? (k : List Char) : List (List Char × JVal) → Option JVal
  | [] => none
  | kv :: rest => if kv.1 = k then some kv.2 else jdictGet? k rest

/-- `k in d` on a string-keyed dict. -/
def jdictContains (k : List Char) : List (List Char × JVal) → Bool
  | [] => false
  | kv :: rest => if kv.1 = k then true else jdictContains k rest

/-- The comprehension dropping one key while keeping insertion order,
as in the source's canonical-payload construction. -/
def jdictRemove (k : List Char) : List (List Char × JVal) → List (List Char × JVal)
  | [] => []
  | kv :: rest => if kv.1 = k then jdictRemove k rest else kv :: jdictRemove k rest

/-- Assignment `d[k] = v` on a dict copy: replace in place if present,
else append at the end (Python insertion-order semantics). -/
def jdictSet (k : List Char) (v : JVal) : List (List Char × JVal) → List (List Char × JVal)
  | [] => [(k, v)]
  | kv :: rest => if kv.1 = k then (k, v) :: rest else kv :: jdictSet k v rest

/-- Python truthiness of a JSON-representable value: `None`, `False`, `0`,
empty string, empty list and empty dict are falsy. -/
def jTruthy : JVal → Bool
  | .jnull => false
  | .jbool b => b
  | .jnum i => if i = 0 then false else true
  | .jstr [] => false
  | .jstr (_ :: _) => true
  | .jarr [] => false
  | .jarr (_ :: _) => true
  | .jobj [] => false
  | .jobj (_ :: _) => true

/-!
### Ed25519 signing (`src/shared/crypto/signing.py`)

Payloads are canonicalized (dict → sorted compact JSON → UTF-8, str → UTF-8,
bytes unchanged) and signed with Ed25519.  The cryptography itself is
idealized: a signature is an injective symbolic pairing of the key with the
message bytes.
-/

/-- The three payload shapes `sign`/`verify`/`compute_hmac` accept:
a dict (serialized to canonical JSON), a `str`, or raw `bytes`. -/
inductive PyData where
  | pyDict : List (List Char × JVal) → PyData
  | pyStr : List Char → PyData
  | pyBytes : List Nat → PyData

/-- The byte-serialization step shared by `sign`, `verify` and
`compute_hmac`: a dict becomes `json.dumps(..., separators=(',', ':'),
sort_keys=True)` encoded as UTF-8, a `str` is UTF-8 encoded, and `bytes`
pass through unchanged. -/
def canonBytes : PyData → List Nat
  | .pyDict d => utf8Encode (jsonDumps true (.jobj d))
  | .pyStr s => utf8Encode s
  | .pyBytes bs => bs

/-- A byte rendered as the character of its code point, used to embed
message bytes into a symbolic signature or MAC string. -/
def byteChar (b : Nat) : Char := Char.ofNat b

/-- Bytes rendered as characters, one per byte. -/
def bytesToChars (bs : List Nat) : List Char := bs.map byteChar

/-- Modelled from the spec: Ed25519 signing is deterministic, so fixed key
and message bytes yield one signature string, and unforgeable, so
`VerifyKey.verify` accepts exactly that string for that key and message.
The model pairs the key seed (a `Nat` standing for the 32-byte key; the
verify key derived from a seed is identified with the seed) with the
message bytes.  Signature strings of any other form are exactly the ones
`verify` rejects with `BadSignatureError`; strings that fail base64
decoding raise inside the wrapper's `try` and are likewise folded into
rejection. -/
def ed25519SigB64 (sk : Nat) (msg : List Nat) : List Char :=
  'E' :: 'D' :: (natToChars sk ++ '#' :: bytesToChars msg)

/-- A signer holding a private key (seed). -/
structure Ed25519Signer where
  privKey : Nat

/-- `Ed25519Signer.sign`: canonicalize the payload, sign it, return the
base64 signature text. -/
def Ed25519Signer.sign (sg : Ed25519Signer) (payload : PyData) : List Char :=
  ed25519SigB64 sg.privKey (canonBytes payload)

/-- The `'signature'` key. -/
def signatureKey : List Char := ['s', 'i', 'g', 'n', 'a', 't', 'u', 'r', 'e']

/-- `Ed25519Signer.sign_manifest`: sign the manifest without its
`'signature'` field and return a copy with the signature embedded. -/
def Ed25519Signer.sign_manifest (sg : Ed25519Signer)
    (manifest : List (List Char × JVal)) : List (List Char × JVal) :=
  jdictSet signatureKey
    (.jstr (sg.sign (.pyDict (jdictRemove signatureKey manifest)))) manifest

/-- A public-key string handed to `Ed25519Verifier.__init__`: either the
base64 encoding of a valid 32-byte verify key (identified with its seed),
or a malformed string on which `b64decode`/`VerifyKey` raises. -/
inductive KeyStr where
  | valid : Nat → KeyStr
  | malformed : KeyStr

/-- `Ed25519Verifier.__init__`: `base64.b64decode(public_key_b64)` and
`VerifyKey(public_bytes)` run with no exception handler around them, so a
malformed key string raises out of the constructor. -/
def Ed25519Verifier.init : KeyStr → Except Unit Nat
  | .valid k => .ok k
  | .malformed => .error ()

/-- `Ed25519Verifier.verify` on a constructed verifier: canonicalize the
payload, then, inside `try`: base64-decode the signature and check it.
Every exception — bad base64, `TypeError` for a non-string signature
value, `BadSignatureError` — is caught and surfaces as `false`. -/
def Ed25519Verifier.verify (pk : Nat) (payload : PyData) (signature_b64 : JVal) : Bool :=
  match signature_b64 with
  | .jstr s => s = ed25519SigB64 pk (canonBytes payload)
  | _ => false

/-- `Ed25519Verifier.verify_manifest`: `false` when `'signature'` is
missing, else verify the manifest minus `'signature'` against the embedded
signature value. -/
def Ed25519Verifier.verify_manifest (pk : Nat) (manifest : List (List Char × JVal)) : Bool :=
  match jdictGet? signatureKey manifest with
  | none => false
  | some sig => Ed25519Verifier.verify pk (.pyDict (jdictRemove signatureKey manifest)) sig

/-- `verify_data`: constructs an `Ed25519Verifier` — whose constructor
raises on a malformed key — and then verifies. -/
def verify_data (public_key_b64 : KeyStr) (data : PyData) (signature_b64 : JVal) :
    Except Unit Bool :=
  match Ed25519Verifier.init public_key_b64 with
  | .ok pk => .ok (Ed25519Verifier.verify pk data signature_b64)
  | .error e => .error e

/-!
### HMAC-SHA256 (`src/shared/crypto/hmac.py`)
-/

/-- Modelled from the spec: HMAC-SHA256 is deterministic and, for
verification purposes, collision-free across (secret, message) pairs, so
the base64 tag is an injective symbolic pairing of the station secret
string with the authenticated bytes.  (`b64decode` of the secret inside
`compute_hmac` is not modelled separately: the tag is a function of the
secret string itself.) -/
def hmacB64 (secret : List Char) (msg : List Nat) : List Char :=
  'H' :: 'M' :: (secret ++ '#' :: bytesToChars msg)

/-- `compute_hmac(secret_b64, data)`: canonicalize and tag. -/
def compute_hmac (secret_b64 : List Char) (data : PyData) : List Char :=
  hmacB64 secret_b64 (canonBytes data)

/-- `hmac.compare_digest(expected, hmac_b64)` preceded by
`compute_hmac`, as `verify_hmac` and `ReportDecryptor.verify_report` run
it.  The candidate tag read out of a dict is an arbitrary JSON value:
`compare_digest` raises `TypeError` — caught by no handler in either
module — when it is not a string, or is a string with non-ASCII
characters; otherwise it is a timing-safe equality test. -/
def verify_hmac (secret_b64 : List Char) (data : PyData) (hmac_b64 : JVal) :
    Except Unit Bool :=
  match hmac_b64 with
  | .jstr t =>
      if ∀ c ∈ t, c.toNat < 128 then .ok (compute_hmac secret_b64 data = t)
      else .error ()
  | _ => .error ()

/-- The `'hmac'` key. -/
def hmacKey : List Char := ['h', 'm', 'a', 'c']

/-- `add_hmac_to_report`: tag the report without its `'hmac'` field and
return a copy with the tag embedded. -/
def add_hmac_to_report (secret_b64 : List Char) (report : List (List Char × JVal)) :
    List (List Char × JVal) :=
  jdictSet hmacKey
    (.jstr (compute_hmac secret_b64 (.pyDict (jdictRemove hmacKey report)))) report

/-- `verify_report_hmac`: `false` when `'hmac'` is missing, else verify
the report minus `'hmac'` against the embedded tag. -/
def verify_report_hmac (secret_b64 : List Char) (report : List (List Char × JVal)) :
    Except Unit Bool :=
  match jdictGet? hmacKey report with
  | none => .ok false
  | some t => verify_hmac secret_b64 (.pyDict (jdictRemove hmacKey report)) t

/-- Lookup on a string-keyed registry of secret strings. -/
def sdictGet? (k : List Char) : List (List Char × List Char) → Option (List Char)
  | [] => none
  | kv :: rest => if kv.1 = k then some kv.2 else sdictGet? k rest

/-- The `'station_id'` key. -/
def stationIdKey : List Char := ['s', 't', 'a', 't', 'i', 'o', 'n', '_', 'i', 'd']

/-- Hub-side registry `station_id -> secret_b64`. -/
structure HubVerifier where
  secrets : List (List Char × List Char)

/-- `HubVerifier.verify_report`: read the report's own `station_id`
(`None` or falsy → `false`), look its secret up in the registry
(`dict.get` raises `TypeError` on an unhashable key, i.e. a list or dict
value; a missing or falsy secret → `false`), then check the report tag. -/
def HubVerifier.verify_report (hub : HubVerifier) (report : List (List Char × JVal)) :
    Except Unit Bool :=
  match jdictGet? stationIdKey report with
  | none => .ok false
  | some sid =>
      if jTruthy sid then
        match sid with
        | .jstr s =>
            match sdictGet? s hub.secrets with
            | none => .ok false
            | some secret =>
                if secret = [] then .ok false
                else verify_report_hmac secret report
        | .jarr _ => .error ()
        | .jobj _ => .error ()
        | _ => .ok false
      else .ok false

/-- Hub-side decryptor state: the private key and the HMAC registry
(`src/shared/protocol/report.py`, `ReportDecryptor`). -/
structure ReportDecryptor where
  privKey : Nat
  station_secrets : List (List Char × List Char)

/-- `ReportDecryptor.verify_report`: as `HubVerifier.verify_report`, but
with an explicit falsy check on the `'hmac'` value before the inlined
compute-and-compare. -/
def ReportDecryptor.verify_report (d : ReportDecryptor) (report : List (List Char × JVal)) :
    Except Unit Bool :=
  match jdictGet? stationIdKey report with
  | none => .ok false
  | some sid =>
      if jTruthy sid then
        match sid with
        | .jstr s =>
            match sdictGet? s d.station_secrets with
            | none => .ok false
            | some secret =>
                if secret = [] then .ok false
                else
                  match jdictGet? hmacKey report with
                  | none => .ok false
                  | some hv =>
                      if jTruthy hv then
                        verify_hmac secret (.pyDict (jdictRemove hmacKey report)) hv
                      else .ok false
        | .jarr _ => .error ()
        | .jobj _ => .error ()
        | _ => .ok false
      else .ok false

/-!
### Claims C2, C7, C10: fail-closed behaviour of the verifiers
-/

/-- C2.  The spec says verification never raises: any exception during
decode/verify surfaces as a boolean `false`.  Refuted: `verify_data`
constructs an `Ed25519Verifier`, whose `__init__` base64-decodes the
public key and builds the `VerifyKey` outside any `try`, so a malformed
public key raises out of `verify_data` instead of returning `false`. -/
theorem c2_counterexample :
    verify_data KeyStr.malformed (.pyBytes []) (.jstr []) = .error () := rfl

/-- C2 (amended).  On a successfully constructed verifier, `verify` is
total: it returns `true` exactly on the unique valid signature string for
the canonical payload bytes and `false` on every other value, including
non-string ones; `verify_data` forwards that answer for a well-formed
public key but raises on a malformed one. -/
theorem c2_amended_verify_total :
    (∀ (k : Nat) (p : PyData) (s : JVal),
        verify_data (KeyStr.valid k) p s = .ok (Ed25519Verifier.verify k p s)) ∧
    (∀ (p : PyData) (s : JVal), verify_data KeyStr.malformed p s = .error ()) ∧
    (∀ (k : Nat) (p : PyData) (s : List Char),
        (Ed25519Verifier.verify k p (.jstr s) = true ↔ s = ed25519SigB64 k (canonBytes p))) ∧
    (∀ (k : Nat) (p : PyData) (s : JVal), (∀ t, s ≠ JVal.jstr t) →
        Ed25519Verifier.verify k p s = false) := by
  refine ⟨fun k p s => rfl, fun p s => rfl, fun k p s => ?_, fun k p s h => ?_⟩
  · simp [Ed25519Verifier.verify]
  · cases s
    case jstr t => exact absurd rfl (h t)
    all_goals rfl

/-- The hypothesis of the non-string clause of `c2_amended_verify_total`,
discharged at the concrete value `None`. -/
theorem c2_amended_verify_total_witness :
    Ed25519Verifier.verify 0 (.pyBytes []) JVal.jnull = false :=
  c2_amended_verify_total.2.2.2 0 (.pyBytes []) JVal.jnull (fun _ h => nomatch h)

/-- C7.  The spec says a report whose `station_id` is missing, empty, or
not registered always fails `verify_report` with `false` and never
throws.  Refuted: `self._secrets.get(station_id)` is keyed by the
report's own `station_id` value, and when that value is unhashable (a
JSON list or object) the registry lookup raises `TypeError` instead of
returning `false`. -/
theorem c7_counterexample :
    HubVerifier.verify_report ⟨[]⟩ [(stationIdKey, .jarr [.jnull])] = .error () := rfl

/-- C7 (amended).  Both `HubVerifier.verify_report` and
`ReportDecryptor.verify_report` fail closed with `false` — never an
acceptance, never an exception — whenever the report's `station_id` is
missing, falsy, or a string not in the registry, regardless of the rest
of the report (in particular of its `hmac` value); but a truthy
unhashable `station_id` (here a non-empty list) raises. -/
theorem c7_amended_unknown_station_fails :
    (∀ (hub : HubVerifier) (r : List (List Char × JVal)),
        jdictGet? stationIdKey r = none → hub.verify_report r = .ok false) ∧
    (∀ (hub : HubVerifier) (r : List (List Char × JVal)) (sid : JVal),
        jdictGet? stationIdKey r = some sid → jTruthy sid = false →
        hub.verify_report r = .ok false) ∧
    (∀ (hub : HubVerifier) (r : List (List Char × JVal)) (s : List Char),
        jdictGet? stationIdKey r = some (.jstr s) → sdictGet? s hub.secrets = none →
        hub.verify_report r = .ok false) ∧
    (∀ (hub : HubVerifier) (r : List (List Char × JVal)) (v : JVal) (vs : List JVal),
        jdictGet? stationIdKey r = some (.jarr (v :: vs)) →
        hub.verify_report r = .error ()) ∧
    (∀ (d : ReportDecryptor) (r : List (List Char × JVal)),
        jdictGet? stationIdKey r = none → d.verify_report r = .ok false) ∧
    (∀ (d : ReportDecryptor) (r : List (List Char × JVal)) (sid : JVal),
        jdictGet? stationIdKey r = some sid → jTruthy sid = false →
        d.verify_report r = .ok false) ∧
    (∀ (d : ReportDecryptor) (r : List (List Char × JVal)) (s : List Char),
        jdictGet? stationIdKey r = some (.jstr s) → sdictGet? s d.station_secrets = none →
        d.verify_report r = .ok false) := by
  refine ⟨?_, ?_, ?_, ?_, ?_, ?_, ?_⟩
  · intro hub r h
    simp [HubVerifier.verify_report, h]
  · intro hub r sid h ht
    simp [HubVerifier.verify_report, h, ht]
  · intro hub r s h hs
    cases s with
    | nil => simp [HubVerifier.verify_report, h, jTruthy]
    | cons c cs => simp [HubVerifier.verify_report, h, jTruthy, hs]
  · intro hub r v vs h
    simp [HubVerifier.verify_report, h, jTruthy]
  · intro d r h
    simp [ReportDecryptor.verify_report, h]
  · intro d r sid h ht
    simp [ReportDecryptor.verify_report, h, ht]
  · intro d r s h hs
    cases s with
    | nil => simp [ReportDecryptor.verify_report, h, jTruthy]
    | cons c cs => simp [ReportDecryptor.verify_report, h, jTruthy, hs]

/-- The unregistered-station clause of `c7_amended_unknown_station_fails`
applied to an empty registry and a concrete report. -/
theorem c7_amended_unknown_station_fails_witness :
    HubVerifier.verify_report ⟨[]⟩ [(stationIdKey, .jstr ['A'])] = .ok false :=
  c7_amended_unknown_station_fails.2.2.1 ⟨[]⟩ [(stationIdKey, .jstr ['A'])] ['A'] rfl rfl

/-- C10.  A dict lacking its authentication field fails closed without
raising: `verify_manifest` returns `false` on a manifest with no
`'signature'` key, and `verify_report_hmac` returns `false` on a report
with no `'hmac'` key. -/
theorem c10_missing_auth_field_fails :
    (∀ (pk : Nat) (m : List (List Char × JVal)),
        jdictGet? signatureKey m = none → Ed25519Verifier.verify_manifest pk m = false) ∧
    (∀ (secret : List Char) (r : List (List Char × JVal)),
        jdictGet? hmacKey r = none → verify_report_hmac secret r = .ok false) := by
  constructor
  · intro pk m h
    simp [Ed25519Verifier.verify_manifest, h]
  · intro secret r h
    simp [verify_report_hmac, h]

/-- Both clauses of `c10_missing_auth_field_fails` applied to the empty
dict, which lacks both authentication fields. -/
theorem c10_missing_auth_field_fails_witness :
    Ed25519Verifier.verify_manifest 0 [] = false ∧ verify_report_hmac [] [] = .ok false :=
  ⟨c10_missing_auth_field_fails.1 0 [] rfl, c10_missing_auth_field_fails.2 [] [] rfl⟩

/-!
### SealedBox encryption (`src/shared/crypto/encryption.py`)

`encrypt` serializes (compact JSON in dict order, UTF-8, or raw bytes),
optionally zlib-compresses, seals to the recipient key, and base64-encodes;
`decrypt` inverts, and with `decompress=True` it tries `zlib.decompress`
and silently keeps the raw bytes when that raises `zlib.error`.
-/

/-- The serialization step of `SealedBox.encrypt`: like `canonBytes`, but
`json.dumps(..., separators=(',', ':'))` keeps the dict's insertion order
(no `sort_keys`). -/
def encBytes : PyData → List Nat
  | .pyDict d => utf8Encode (jsonDumps false (.jobj d))
  | .pyStr s => utf8Encode s
  | .pyBytes bs => bs

/-- Modelled from the spec: `zlib.compress(data, level=6)` is injective
and lossless, and its stream opens with the fixed header bytes
`0x78 0x9c`.  The model keeps the payload after the header, which
preserves exactly what the code relies on: `zlib.decompress` inverts
`zlib.compress` and raises `zlib.error` on input that does not parse as a
zlib stream. -/
def zlibCompress (bs : List Nat) : List Nat := 120 :: 156 :: bs

/-- `zlib.decompress`: inverts `zlibCompress`; anything not shaped like a
stream raises `zlib.error` (`none` here). -/
def zlibDecompress : List Nat → Option (List Nat)
  | 120 :: 156 :: rest => some rest
  | _ => none

/-- Characters back to their code points (`bytes` of a character list). -/
def charsToBytes (s : List Char) : List Nat := s.map Char.toNat

/-- Modelled from the spec: a NaCl `SealedBox` ciphertext decrypts to the
sealed bytes under the matching private key and raises `CryptoError`
otherwise, and base64 transport of the ciphertext is lossless.  The
base64 ciphertext string is modelled as a pairing of the recipient
keypair (a `Nat` seed) with the sealed bytes. -/
def sealedB64 (pk : Nat) (ct : List Nat) : List Char :=
  natToChars pk ++ '#' :: bytesToChars ct

/-- Partial inverse of `sealedB64`: recovers the recipient key and the
sealed bytes from a ciphertext string of that exact shape; every other
string is one on which `b64decode` or `unseal` raises. -/
def sealedParse (s : List Char) : Option (Nat × List Nat) :=
  match splitFirst '#' s with
  | none => none
  | some (a, b) =>
      match pyIntParse a with
      | none => none
      | some i => if a = natToChars i.toNat then some (i.toNat, charsToBytes b) else none

/-- `SealedBox.encrypt(plaintext, compress)` with the recipient public
key `pk`: serialize, optionally compress, seal and base64-encode. -/
def SealedBox.encrypt (pk : Nat) (plaintext : PyData) (compress : Bool) : List Char :=
  sealedB64 pk (if compress then zlibCompress (encBytes plaintext) else encBytes plaintext)

/-- `SealedBox.decrypt(ciphertext_b64, decompress)` with the private key
`sk`: base64-decode and unseal (both raise on malformed or misdirected
input, with no handler), then, when `decompress` is set, try
`zlib.decompress` and keep the raw bytes when it raises `zlib.error`. -/
def SealedBox.decrypt (sk : Nat) (ciphertext_b64 : List Char) (decompress : Bool) :
    Except Unit (List Nat) :=
  match sealedParse ciphertext_b64 with
  | none => .error ()
  | some (pk, pt) =>
      if pk = sk then
        if decompress then
          match zlibDecompress pt with
          | some d => .ok d
          | none => .ok pt
        else .ok pt
      else .error ()

theorem isDigit_ne_hash {c : Char} (h : c.isDigit = true) : c ≠ '#' := by
  intro he
  subst he
  exact absurd h (by decide)

theorem byteChar_toNat (b : Nat) (h : b < 256) : (byteChar b).toNat = b := by
  have hv : Nat.isValidChar b := Or.inl (by omega)
  rw [byteChar, Char.ofNat, dif_pos hv]
  simp [Char.toNat, Char.ofNatAux, UInt32.toNat, BitVec.toNat_ofNatLt]

theorem charsToBytes_bytesToChars (bs : List Nat) (h : ∀ x ∈ bs, x < 256) :
    charsToBytes (bytesToChars bs) = bs := by
  induction bs with
  | nil => rfl
  | cons b rest ih =>
    have hb : b < 256 := h b (by simp)
    have hrest : ∀ x ∈ rest, x < 256 := fun x hx => h x (by simp [hx])
    simp [charsToBytes, bytesToChars] at ih ⊢
    exact ⟨byteChar_toNat b hb, ih hrest⟩

theorem hash_not_mem_natToChars (n : Nat) : '#' ∉ natToChars n := by
  intro h
  exact isDigit_ne_hash (natToChars_all_digits n '#' h) rfl

/-- Decoding and unsealing recover exactly what was sealed. -/
theorem sealedParse_sealedB64 (pk : Nat) (ct : List Nat) (h : ∀ x ∈ ct, x < 256) :
    sealedParse (sealedB64 pk ct) = some (pk, ct) := by
  rw [sealedB64, sealedParse, splitFirst_append (hash_not_mem_natToChars pk)]
  show (match pyIntParse (natToChars pk) with
    | none => none
    | some i =>
        if natToChars pk = natToChars i.toNat then some (i.toNat, charsToBytes (bytesToChars ct))
        else none) = some (pk, ct)
  rw [pyIntParse_natToChars pk]
  simp [Int.toNat_natCast, charsToBytes_bytesToChars ct h]

/-- C6.  The spec says decryption with the matching private key recovers
the exact original plaintext for arbitrary input, with and without
compression.  Refuted: with `compress=False` and the default
`decompress=True`, a plaintext that is itself a well-formed zlib stream
(here `zlib.compress(b'')`, sealed as-is) is wrongly decompressed by the
silent fallback in `decrypt`, which returns the inner payload instead of
the plaintext that was encrypted. -/
theorem c6_counterexample :
    SealedBox.decrypt 0 (SealedBox.encrypt 0 (.pyBytes (zlibCompress [])) false) true =
      .ok [] ∧ encBytes (.pyBytes (zlibCompress [])) ≠ [] := by
  constructor
  · rfl
  · decide

/-- C6 (amended).  Sealed-box decryption with the matching private key
and default `decompress=True` recovers exactly the serialized plaintext
bytes whenever the message was encrypted with `compress=True`, or was
encrypted uncompressed and its bytes do not themselves parse as a zlib
stream. -/
theorem c6_amended_roundtrip (sk : Nat) (pt : PyData) (c : Bool)
    (hb : ∀ x ∈ encBytes pt, x < 256)
    (h : c = true ∨ zlibDecompress (encBytes pt) = none) :
    SealedBox.decrypt sk (SealedBox.encrypt sk pt c) true = .ok (encBytes pt) := by
  cases c with
  | true =>
    have hz : ∀ x ∈ zlibCompress (encBytes pt), x < 256 := by
      intro x hx
      simp [zlibCompress] at hx
      rcases hx with h1 | h2 | h3
      · omega
      · omega
      · exact hb x h3
    show SealedBox.decrypt sk (sealedB64 sk (zlibCompress (encBytes pt))) true = .ok (encBytes pt)
    simp only [SealedBox.decrypt, sealedParse_sealedB64 sk _ hz]
    simp [zlibCompress, zlibDecompress]
  | false =>
    have hz : zlibDecompress (encBytes pt) = none := by
      rcases h with h1 | h2
      · simp at h1
      · exact h2
    show SealedBox.decrypt sk (sealedB64 sk (encBytes pt)) true = .ok (encBytes pt)
    simp only [SealedBox.decrypt, sealedParse_sealedB64 sk _ hb]
    simp [hz]

/-- The amended round trip applied to concrete bytes with
`compress=True`. -/
theorem c6_amended_roundtrip_witness :
    SealedBox.decrypt 0 (SealedBox.encrypt 0 (.pyBytes [1, 2, 3]) true) true =
      .ok (encBytes (.pyBytes [1, 2, 3])) :=
  c6_amended_roundtrip 0 (.pyBytes [1, 2, 3]) true (by decide) (Or.inl rfl)

/-!
### Parsing the decrypted payload (`bytes.decode('utf-8')`, `json.loads`)

`SealedBox.decrypt_report` finishes with
`json.loads(plaintext.decode('utf-8'))`; both steps raise on malformed
input and nothing in `encryption.py` or `report.py` catches what they
raise.  The decoder and parser below are executable models; the
development relies on them only through evaluation on concrete inputs.
(JSON numbers with a fraction or exponent parse to Python floats, which
lie outside the modelled value space `JVal`; the model maps them, and
strings containing lone surrogate escapes, to a parse failure.)
-/

/-- Strict UTF-8 decoding, fuelled by the byte count; `none` models
`UnicodeDecodeError`. -/
def utf8DecodeAux : Nat → List Nat → Option (List Char)
  | _, [] => some []
  | 0, _ :: _ => none
  | fuel + 1, b :: rest =>
      if b < 128 then (utf8DecodeAux fuel rest).map (fun t => Char.ofNat b :: t)
      else if b < 194 then none
      else if b < 224 then
        match rest with
        | b2 :: rest2 =>
            if 128 ≤ b2 ∧ b2 < 192 then
              (utf8DecodeAux fuel rest2).map
                (fun t => Char.ofNat ((b - 192) * 64 + (b2 - 128)) :: t)
            else none
        | [] => none
      else if b < 240 then
        match rest with
        | b2 :: b3 :: rest2 =>
            if (128 ≤ b2 ∧ b2 < 192) ∧ (128 ≤ b3 ∧ b3 < 192) ∧
                (b = 224 → 160 ≤ b2) ∧ (b = 237 → b2 < 160) then
              (utf8DecodeAux fuel rest2).map
                (fun t => Char.ofNat ((b - 224) * 4096 + (b2 - 128) * 64 + (b3 - 128)) :: t)
            else none
        | _ => none
      else if b < 245 then
        match rest with
        | b2 :: b3 :: b4 :: rest2 =>
            if (128 ≤ b2 ∧ b2 < 192) ∧ (128 ≤ b3 ∧ b3 < 192) ∧ (128 ≤ b4 ∧ b4 < 192) ∧
                (b = 240 → 144 ≤ b2) ∧ (b = 244 → b2 < 144) then
              (utf8DecodeAux fuel rest2).map
                (fun t => Char.ofNat ((b - 240) * 262144 + (b2 - 128) * 4096 +
                  (b3 - 128) * 64 + (b4 - 128)) :: t)
            else none
        | _ => none
      else none

/-- `bs.decode('utf-8')`. -/
def utf8Decode (bs : List Nat) : Option (List Char) := utf8DecodeAux bs.length bs

/-- JSON whitespace between tokens. -/
def jskipWs (s : List Char) : List Char :=
  s.dropWhile (fun c => c = ' ' ∨ c = '\t' ∨ c = '\n' ∨ c = '\r')

/-- Value of one hex digit. -/
def hexVal (c : Char) : Option Nat :=
  if c.isDigit then some (digitVal c)
  else if 97 ≤ c.toNat ∧ c.toNat ≤ 102 then some (c.toNat - 87)
  else if 65 ≤ c.toNat ∧ c.toNat ≤ 70 then some (c.toNat - 55)
  else none

/-- Digits after the first; a fraction or exponent would make a float. -/
def jparseDigits (acc : Nat) : List Char → Option (Nat × List Char)
  | [] => some (acc, [])
  | c :: rest =>
      if c.isDigit then jparseDigits (acc * 10 + digitVal c) rest
      else if c = '.' ∨ c = 'e' ∨ c = 'E' then none
      else some (acc, c :: rest)

/-- A JSON natural: `0`, or a nonzero leading digit then digits. -/
def jparseNat : List Char → Option (Nat × List Char)
  | [] => none
  | c :: rest =>
      if c = '0' then
        match rest with
        | [] => some (0, [])
        | d :: _ =>
            if d.isDigit ∨ d = '.' ∨ d = 'e' ∨ d = 'E' then none else some (0, rest)
      else if c.isDigit then jparseDigits (digitVal c) rest
      else none

/-- A JSON integer, optionally negative. -/
def jparseNum : List Char → Option (Int × List Char)
  | '-' :: rest => (jparseNat rest).map (fun p => (-(p.1 : Int), p.2))
  | s => (jparseNat s).map (fun p => ((p.1 : Int), p.2))

/-- Body of a JSON string after the opening quote, fuelled by its
length: plain characters, short escapes, and `\uXXXX` with surrogate
pairs combined. -/
def jparseStr : Nat → List Char → Option (List Char × List Char)
  | 0, _ => none
  | fuel + 1, s =>
      match s with
      | [] => none
      | '"' :: rest => some ([], rest)
      | '\\' :: e :: rest =>
          if e = '"' ∨ e = '\\' ∨ e = '/' then
            (jparseStr fuel rest).map (fun p => (e :: p.1, p.2))
          else if e = 'b' then (jparseStr fuel rest).map (fun p => (Char.ofNat 8 :: p.1, p.2))
          else if e = 'f' then (jparseStr fuel rest).map (fun p => (Char.ofNat 12 :: p.1, p.2))
          else if e = 'n' then (jparseStr fuel rest).map (fun p => (Char.ofNat 10 :: p.1, p.2))
          else if e = 'r' then (jparseStr fuel rest).map (fun p => (Char.ofNat 13 :: p.1, p.2))
          else if e = 't' then (jparseStr fuel rest).map (fun p => (Char.ofNat 9 :: p.1, p.2))
          else if e = 'u' then
            match rest with
            | h1 :: h2 :: h3 :: h4 :: rest2 =>
                match hexVal h1, hexVal h2, hexVal h3, hexVal h4 with
                | some v1, some v2, some v3, some v4 =>
                    if v1 * 4096 + v2 * 256 + v3 * 16 + v4 < 55296 ∨
                        57343 < v1 * 4096 + v2 * 256 + v3 * 16 + v4 then
                      (jparseStr fuel rest2).map
                        (fun p => (Char.ofNat (v1 * 4096 + v2 * 256 + v3 * 16 + v4) :: p.1, p.2))
                    else if v1 * 4096 + v2 * 256 + v3 * 16 + v4 < 56320 then
                      match rest2 with
                      | '\\' :: 'u' :: g1 :: g2 :: g3 :: g4 :: rest3 =>
                          match hexVal g1, hexVal g2, hexVal g3, hexVal g4 with
                          | some w1, some w2, some w3, some w4 =>
                              if 56320 ≤ w1 * 4096 + w2 * 256 + w3 * 16 + w4 ∧
                                  w1 * 4096 + w2 * 256 + w3 * 16 + w4 ≤ 57343 then
                                (jparseStr fuel rest3).map (fun p =>
                                  (Char.ofNat (65536 +
                                    (v1 * 4096 + v2 * 256 + v3 * 16 + v4 - 55296) * 1024 +
                                    (w1 * 4096 + w2 * 256 + w3 * 16 + w4 - 56320)) :: p.1, p.2))
                              else none
                          | _, _, _, _ => none
                      | _ => none
                    else none
                | _, _, _, _ => none
            | _ => none
          else none
      | ['\\'] => none
      | c :: rest =>
          if c.toNat < 32 then none
          else (jparseStr fuel rest).map (fun p => (c :: p.1, p.2))

mutual

/-- One JSON value, fuelled; Python `json.loads` grammar with
`object_pairs_hook` left at dict construction. -/
def jparseVal : Nat → List Char → Option (JVal × List Char)
  | 0, _ => none
  | fuel + 1, s =>
      match jskipWs s with
      | [] => none
      | c :: rest =>
          if c = lbrace then
            match jskipWs rest with
            | d :: rest2 =>
                if d = rbrace then some (.jobj [], rest2)
                else
                  match jparseFields fuel (d :: rest2) with
                  | some (fs, rest3) =>
                      some (.jobj (fs.foldl (fun dd kv => jdictSet kv.1 kv.2 dd) []), rest3)
                  | none => none
            | [] => none
          else if c = '[' then
            match jskipWs rest with
            | ']' :: rest2 => some (.jarr [], rest2)
            | _ =>
                match jparseItems fuel rest with
                | some (vs, rest2) => some (.jarr vs, rest2)
                | none => none
          else if c = '"' then
            match jparseStr (rest.length + 1) rest with
            | some (str, rest2) => some (.jstr str, rest2)
            | none => none
          else if c = '-' ∨ c.isDigit then
            match jparseNum (c :: rest) with
            | some (i, rest2) => some (.jnum i, rest2)
            | none => none
          else
            match c :: rest with
            | 'n' :: 'u' :: 'l' :: 'l' :: rest2 => some (.jnull, rest2)
            | 't' :: 'r' :: 'u' :: 'e' :: rest2 => some (.jbool true, rest2)
            | 'f' :: 'a' :: 'l' :: 's' :: 'e' :: rest2 => some (.jbool false, rest2)
            | _ => none

/-- Array elements after `[`, one value then `,` or `]`. -/
def jparseItems : Nat → List Char → Option (List JVal × List Char)
  | 0, _ => none
  | fuel + 1, s =>
      match jparseVal fuel s with
      | none => none
      | some (v, rest) =>
          match jskipWs rest with
          | ',' :: rest2 =>
              match jparseItems fuel rest2 with
              | some (vs, rest3) => some (v :: vs, rest3)
              | none => none
          | ']' :: rest2 => some ([v], rest2)
          | _ => none

/-- Object members: a string key, `:`, a value, then `,` or the closing
brace. -/
def jparseFields : Nat → List Char → Option (List (List Char × JVal) × List Char)
  | 0, _ => none
  | fuel + 1, s =>
      match jskipWs s with
      | '"' :: rest =>
          match jparseStr (rest.length + 1) rest with
          | none => none
          | some (k, rest2) =>
              match jskipWs rest2 with
              | ':' :: rest3 =>
                  match jparseVal fuel rest3 with
                  | none => none
                  | some (v, rest4) =>
                      match jskipWs rest4 with
                      | ',' :: rest5 =>
                          match jparseFields fuel rest5 with
                          | some (fs, rest6) => some ((k, v) :: fs, rest6)
                          | none => none
                      | d :: rest5 =>
                          if d = rbrace then some ([(k, v)], rest5) else none
                      | [] => none
              | _ => none
      | _ => none

end

/-- `json.loads(s)`: one value, then nothing but whitespace. -/
def jsonLoads (s : List Char) : Option JVal :=
  match jparseVal (s.length + 1) s with
  | some (v, rest) => if jskipWs rest = [] then some v else none
  | none => none

/-!
### Report envelopes (`encrypt_report` / `decrypt_report` and
`ReportDecryptor`, `src/shared/protocol/report.py`)
-/

/-- The `'type'` key. -/
def typeKey : List Char := ['t', 'y', 'p', 'e']

/-- The `'version'` key. -/
def versionKey : List Char := ['v', 'e', 'r', 's', 'i', 'o', 'n']

/-- The `'payload'` key. -/
def payloadKey : List Char := ['p', 'a', 'y', 'l', 'o', 'a', 'd']

/-- The `'compressed'` key. -/
def compressedKey : List Char := ['c', 'o', 'm', 'p', 'r', 'e', 's', 's', 'e', 'd']

/-- The envelope type tag `'ENCRYPTED_REPORT'`. -/
def encryptedReportType : List Char :=
  ['E', 'N', 'C', 'R', 'Y', 'P', 'T', 'E', 'D', '_', 'R', 'E', 'P', 'O', 'R', 'T']

/-- The protocol version string `'1.8'`. -/
def versionStr : List Char := ['1', '.', '8']

/-- `SealedBox.encrypt_report`: compress-and-seal the report dict and
wrap it in the transport envelope. -/
def SealedBox.encrypt_report (pk : Nat) (report : List (List Char × JVal)) :
    List (List Char × JVal) :=
  [(typeKey, .jstr encryptedReportType),
   (versionKey, .jstr versionStr),
   (payloadKey, .jstr (SealedBox.encrypt pk (.pyDict report) true)),
   (compressedKey, .jbool true)]

/-- `SealedBox.decrypt_report`: raises `ValueError` unless
`envelope.get('type')` equals `'ENCRYPTED_REPORT'`, indexes
`envelope['payload']` (`KeyError` when absent, `TypeError` downstream
when not a string), decrypts honouring `envelope.get('compressed', True)`
truthiness, then decodes UTF-8 and parses JSON — each later step raising
on failure, with no handler anywhere on this path. -/
def SealedBox.decrypt_report (sk : Nat) (envelope : List (List Char × JVal)) :
    Except Unit JVal :=
  match jdictGet? typeKey envelope with
  | some (.jstr t) =>
      if t = encryptedReportType then
        match jdictGet? payloadKey envelope with
        | some (.jstr ct) =>
            match SealedBox.decrypt sk ct
                (jTruthy ((jdictGet? compressedKey envelope).getD (.jbool true))) with
            | .error e => .error e
            | .ok pt =>
                match utf8Decode pt with
                | none => .error ()
                | some txt =>
                    match jsonLoads txt with
                    | none => .error ()
                    | some v => .ok v
        | some _ => .error ()
        | none => .error ()
      else .error ()
  | _ => .error ()

/-- `ReportDecryptor.decrypt_envelope`: decrypt with the Hub key. -/
def ReportDecryptor.decrypt_envelope (d : ReportDecryptor)
    (envelope : List (List Char × JVal)) : Except Unit JVal :=
  SealedBox.decrypt_report d.privKey envelope

/-- `ReportDecryptor.decrypt_and_verify`: decrypt (exceptions propagate —
there is no `try` here), then gate the report behind `verify_report`;
a decrypted value that is not a dict makes `report.get(...)` raise
`AttributeError`. -/
def ReportDecryptor.decrypt_and_verify (d : ReportDecryptor)
    (envelope : List (List Char × JVal)) : Except Unit (Option (List (List Char × JVal))) :=
  match d.decrypt_envelope envelope with
  | .error e => .error e
  | .ok (.jobj report) =>
      match d.verify_report report with
      | .error e => .error e
      | .ok true => .ok (some report)
      | .ok false => .ok none
  | .ok _ => .error ()

/-- C1.  The spec says `decrypt_and_verify` returns the report only when
both decryption and HMAC verification succeed and "returns nothing (not
a malformed object) on any failure".  Refuted: verification failures are
indeed gated, but decryption failures are caught nowhere —
`decrypt_report` raises `ValueError` on a wrong envelope type (here the
empty envelope), so `decrypt_and_verify` propagates an exception instead
of returning `None`. -/
theorem c1_counterexample :
    ReportDecryptor.decrypt_and_verify ⟨0, []⟩ [] = .error () := rfl

/-- C1 (amended).  `decrypt_and_verify` never returns a report that
failed verification: when decryption yields a dict, the result is that
dict exactly when `verify_report` accepts it, `None` when it rejects it,
and the `TypeError` out of the HMAC comparison when that raises; but
when decryption itself fails — wrong envelope type included — the
exception propagates instead of a `None` return. -/
theorem c1_amended_decrypt_gate :
    (∀ (d : ReportDecryptor) (env : List (List Char × JVal)) (e : Unit),
        d.decrypt_envelope env = .error e → d.decrypt_and_verify env = .error e) ∧
    (∀ (d : ReportDecryptor) (env : List (List Char × JVal))
        (report : List (List Char × JVal)),
        d.decrypt_envelope env = .ok (.jobj report) →
        d.decrypt_and_verify env =
          match d.verify_report report with
          | .error e => .error e
          | .ok b => .ok (if b then some report else none)) ∧
    (∀ (d : ReportDecryptor) (env : List (List Char × JVal)),
        jdictGet? typeKey env = none → d.decrypt_and_verify env = .error ()) := by
  refine ⟨?_, ?_, ?_⟩
  · intro d env e h
    simp [ReportDecryptor.decrypt_and_verify, h]
  · intro d env report h
    simp only [ReportDecryptor.decrypt_and_verify, h]
    rcases hv : d.verify_report report with e | b
    · simp [hv]
    · cases b
      · simp [hv]
      · simp [hv]
  · intro d env h
    have hd : d.decrypt_envelope env = .error () := by
      simp [ReportDecryptor.decrypt_envelope, SealedBox.decrypt_report, h]
    simp [ReportDecryptor.decrypt_and_verify, hd]

/-- The dict clause of `c1_amended_decrypt_gate` applied to a concrete
envelope whose payload seals the two bytes of the empty JSON object
uncompressed: decryption succeeds, verification rejects (no
`station_id`), and the gate returns `None` rather than the report. -/
theorem c1_amended_decrypt_gate_witness :
    ReportDecryptor.decrypt_and_verify ⟨0, []⟩
      [(typeKey, .jstr encryptedReportType),
       (payloadKey, .jstr (sealedB64 0 [123, 125])),
       (compressedKey, .jbool false)] = .ok none :=
  (c1_amended_decrypt_gate.2.1 ⟨0, []⟩
    [(typeKey, .jstr encryptedReportType),
     (payloadKey, .jstr (sealedB64 0 [123, 125])),
     (compressedKey, .jbool false)] [] rfl).trans rfl

/-!
### Manifests (`src/shared/protocol/manifest.py`)

`create_manifest` builds the eight-field manifest dict, signs it with
`sign_manifest`, and returns a `RestockManifest` carrying the embedded
signature; `to_dict` lays out the same fields with `signature` last.
The randomized inputs (`manifest_id`, `short_code`, `nonce`, `ts`) are
parameters here.
-/

/-- The packet type tag `'RESTOCK_MANIFEST'`. -/
def restockManifestType : List Char :=
  ['R', 'E', 'S', 'T', 'O', 'C', 'K', '_', 'M', 'A', 'N', 'I', 'F', 'E', 'S', 'T']

/-- The `'manifest_id'` key. -/
def manifestIdKey : List Char := ['m', 'a', 'n', 'i', 'f', 'e', 's', 't', '_', 'i', 'd']

/-- The `'short_code'` key. -/
def shortCodeKey : List Char := ['s', 'h', 'o', 'r', 't', '_', 'c', 'o', 'd', 'e']

/-- The `'items'` key. -/
def itemsKey : List Char := ['i', 't', 'e', 'm', 's']

/-- The `'ts'` key. -/
def tsKey : List Char := ['t', 's']

/-- The `'nonce'` key. -/
def nonceKey : List Char := ['n', 'o', 'n', 'c', 'e']

/-- The `'code'` key of an item. -/
def codeKey : List Char := ['c', 'o', 'd', 'e']

/-- The `'qty'` key of an item. -/
def qtyKey : List Char := ['q', 't', 'y']

/-- The `'unit'` key of an item. -/
def unitKey : List Char := ['u', 'n', 'i', 't']

/-- One manifest item `{code, qty, unit}`. -/
structure ManifestItem where
  code : List Char
  qty : Int
  unit : List Char

/-- The JSON dict of one item, in its literal key order. -/
def manifestItemJ (it : ManifestItem) : JVal :=
  .jobj [(codeKey, .jstr it.code), (qtyKey, .jnum it.qty), (unitKey, .jstr it.unit)]

/-- The `manifest_data` dict literal of `create_manifest`, in source
order. -/
def manifestDataDict (manifest_id short_code station_id : List Char)
    (items : List ManifestItem) (ts : Int) (nonce : List Char) :
    List (List Char × JVal) :=
  [(typeKey, .jstr restockManifestType),
   (versionKey, .jstr versionStr),
   (manifestIdKey, .jstr manifest_id),
   (shortCodeKey, .jstr short_code),
   (stationIdKey, .jstr station_id),
   (itemsKey, .jarr (items.map manifestItemJ)),
   (tsKey, .jnum ts),
   (nonceKey, .jstr nonce)]

/-- The `RestockManifest` dataclass. -/
structure RestockManifest where
  manifest_id : List Char
  short_code : List Char
  station_id : List Char
  items : List ManifestItem
  ts : Int
  nonce : List Char
  signature : List Char

/-- `ManifestBuilder.create_manifest`: build `manifest_data`, sign it,
and keep the embedded signature string. -/
def ManifestBuilder.create_manifest (sg : Ed25519Signer) (station_id : List Char)
    (items : List ManifestItem) (manifest_id short_code nonce : List Char) (ts : Int) :
    RestockManifest :=
  { manifest_id := manifest_id
    short_code := short_code
    station_id := station_id
    items := items
    ts := ts
    nonce := nonce
    signature :=
      match jdictGet? signatureKey
          (sg.sign_manifest (manifestDataDict manifest_id short_code station_id items ts nonce)) with
      | some (.jstr s) => s
      | _ => [] }

/-- `RestockManifest.to_dict`, in source key order. -/
def RestockManifest.to_dict (m : RestockManifest) : List (List Char × JVal) :=
  [(typeKey, .jstr restockManifestType),
   (versionKey, .jstr versionStr),
   (manifestIdKey, .jstr m.manifest_id),
   (shortCodeKey, .jstr m.short_code),
   (stationIdKey, .jstr m.station_id),
   (itemsKey, .jarr (m.items.map manifestItemJ)),
   (tsKey, .jnum m.ts),
   (nonceKey, .jstr m.nonce),
   (signatureKey, .jstr m.signature)]

/-!
### Injectivity of the canonical serialization in an item quantity

The tamper half of claim C5 needs that changing one `qty` changes the
canonical JSON bytes, hence the expected signature.  The argument splits
the canonical string into a prefix, the rendered quantity, and a suffix
that are unchanged by the mutation, and cancels them.
-/

theorem natToChars_ne_nil (n : Nat) : natToChars n ≠ [] := by
  induction n using Nat.strong_induction_on with
  | _ n ih =>
    by_cases h0 : n = 0
    · subst h0
      decide
    by_cases hs : n < 10
    · rw [natToChars_small n hs h0]
      simp
    · rw [natToChars_step n (by omega)]
      simp

theorem natToChars_inj {a b : Nat} (h : natToChars a = natToChars b) : a = b := by
  have ha := natToChars_foldl a
  rw [h] at ha
  exact ha.symm.trans (natToChars_foldl b)

theorem dash_not_mem_natToChars (n : Nat) : '-' ∉ natToChars n := by
  intro h
  exact absurd (natToChars_all_digits n '-' h) (by decide)

theorem intToChars_inj {a b : Int} (h : intToChars a = intToChars b) : a = b := by
  unfold intToChars at h
  by_cases ha : a < 0 <;> by_cases hb : b < 0
  · rw [if_pos ha, if_pos hb] at h
    simp only [List.cons.injEq, true_and] at h
    have := natToChars_inj h
    omega
  · rw [if_pos ha, if_neg hb] at h
    have hm : '-' ∈ natToChars b.toNat := by
      rw [← h]
      simp
    exact absurd hm (dash_not_mem_natToChars _)
  · rw [if_neg ha, if_pos hb] at h
    have hm : '-' ∈ natToChars a.toNat := by
      rw [h]
      simp
    exact absurd hm (dash_not_mem_natToChars _)
  · rw [if_neg ha, if_neg hb] at h
    have := natToChars_inj h
    omega

theorem isDigit_ascii {c : Char} (h : c.isDigit = true) : c.toNat < 128 := by
  simp [Char.isDigit] at h
  obtain ⟨h1, h2⟩ := h
  have h3 : c.toNat ≤ 57 := h2
  omega

theorem intToChars_ascii (i : Int) : ∀ c ∈ intToChars i, c.toNat < 128 := by
  intro c hc
  unfold intToChars at hc
  by_cases hi : i < 0
  · rw [if_pos hi] at hc
    rcases List.mem_cons.mp hc with rfl | hm
    · decide
    · exact isDigit_ascii (natToChars_all_digits _ c hm)
  · rw [if_neg hi] at hc
    exact isDigit_ascii (natToChars_all_digits _ c hc)

theorem char_toNat_lt (c : Char) : c.toNat < 1114112 := by
  change c.val.toNat < 1114112
  rcases c.valid with h1 | h2
  · omega
  · omega

theorem charUtf8_lt (c : Char) : ∀ x ∈ charUtf8 c, x < 256 := by
  intro x hx
  have hb : c.toNat < 1114112 := char_toNat_lt c
  unfold charUtf8 at hx
  by_cases h1 : c.toNat < 128
  · rw [if_pos h1] at hx
    simp at hx
    omega
  · rw [if_neg h1] at hx
    by_cases h2 : c.toNat < 2048
    · rw [if_pos h2] at hx
      simp at hx
      rcases hx with rfl | rfl
      · omega
      · omega
    · rw [if_neg h2] at hx
      by_cases h3 : c.toNat < 65536
      · rw [if_pos h3] at hx
        simp at hx
        rcases hx with rfl | rfl | rfl
        · omega
        · omega
        · omega
      · rw [if_neg h3] at hx
        simp at hx
        rcases hx with rfl | rfl | rfl | rfl
        · omega
        · omega
        · omega
        · omega

theorem utf8Encode_lt (s : List Char) : ∀ x ∈ utf8Encode s, x < 256 := by
  induction s with
  | nil =>
    intro x hx
    simp [utf8Encode] at hx
  | cons c rest ih =>
    intro x hx
    rw [utf8Encode] at hx
    rcases List.mem_append.mp hx with hm | hm
    · exact charUtf8_lt c x hm
    · exact ih x hm

/-- UTF-8 restricted to ASCII text is the identity on code points. -/
theorem utf8Encode_ascii (s : List Char) (h : ∀ c ∈ s, c.toNat < 128) :
    utf8Encode s = charsToBytes s := by
  induction s with
  | nil => rfl
  | cons c rest ih =>
    have hc : c.toNat < 128 := h c (by simp)
    have hrest : ∀ x ∈ rest, x.toNat < 128 := fun x hx => h x (by simp [hx])
    rw [utf8Encode, charUtf8, if_pos hc, ih hrest]
    rfl

/-- UTF-8 is injective on ASCII text. -/
theorem utf8_ascii_inj {s1 s2 : List Char} (h1 : ∀ c ∈ s1, c.toNat < 128)
    (h2 : ∀ c ∈ s2, c.toNat < 128) (h : utf8Encode s1 = utf8Encode s2) : s1 = s2 := by
  rw [utf8Encode_ascii s1 h1, utf8Encode_ascii s2 h2] at h
  unfold charsToBytes at h
  exact List.map_injective_iff.mpr (fun a b hab => Char.ext (UInt32.ext hab)) h

/-- The symbolic signature determines the signed message (for byte
strings, which is what every signed message is). -/
theorem ed25519SigB64_inj_msg {k : Nat} {m1 m2 : List Nat}
    (h1 : ∀ x ∈ m1, x < 256) (h2 : ∀ x ∈ m2, x < 256)
    (h : ed25519SigB64 k m1 = ed25519SigB64 k m2) : m1 = m2 := by
  unfold ed25519SigB64 at h
  simp only [List.cons.injEq, true_and] at h
  have h3 := List.append_cancel_left h
  simp only [List.cons.injEq, true_and] at h3
  have h4 : charsToBytes (bytesToChars m1) = charsToBytes (bytesToChars m2) := by
    rw [h3]
  rw [charsToBytes_bytesToChars m1 h1, charsToBytes_bytesToChars m2 h2] at h4
  exact h4

/-!
### Shape of the canonical manifest JSON
-/

/-- Rendered array elements are the rendered values. -/
theorem jsonArr_eq_map (l : List JVal) : jsonArr true l = l.map (jsonDumps true) := by
  induction l with
  | nil => rfl
  | cons v vs ih => simp [jsonArr, ih]

/-- Everything before a distinguished element in a comma join. -/
def preJC : List (List Char) → List Char
  | [] => []
  | x :: rest => x ++ ',' :: preJC rest

/-- Everything after a distinguished element in a comma join. -/
def postJC : List (List Char) → List Char
  | [] => []
  | z :: zs => ',' :: joinComma (z :: zs)

theorem joinComma_split (xs : List (List Char)) (y : List Char) (zs : List (List Char)) :
    joinComma (xs ++ y :: zs) = preJC xs ++ (y ++ postJC zs) := by
  induction xs with
  | nil =>
    cases zs with
    | nil => simp [joinComma, preJC, postJC]
    | cons z zs2 => simp [joinComma, preJC, postJC]
  | cons x xs2 ih =>
    cases hxz : xs2 ++ y :: zs with
    | nil => exact absurd hxz (by simp)
    | cons w rest =>
      have : joinComma (x :: (xs2 ++ y :: zs)) = x ++ ',' :: joinComma (xs2 ++ y :: zs) := by
        rw [hxz]
        rfl
      rw [List.cons_append, this, ih]
      simp [preJC]

/-- The fixed text between the opening brace and the first rendered
item. -/
def manifestPre : List Char := lbrace :: (jsonQuote itemsKey ++ [':', '['])

/-- The rendered fields that follow the item list, in sorted key order. -/
def manifestRestStr (manifest_id short_code station_id : List Char) (ts : Int)
    (nonce : List Char) : List Char :=
  joinComma
    [jsonQuote manifestIdKey ++ ':' :: jsonQuote manifest_id,
     jsonQuote nonceKey ++ ':' :: jsonQuote nonce,
     jsonQuote shortCodeKey ++ ':' :: jsonQuote short_code,
     jsonQuote stationIdKey ++ ':' :: jsonQuote station_id,
     jsonQuote tsKey ++ ':' :: intToChars ts,
     jsonQuote typeKey ++ ':' :: jsonQuote restockManifestType,
     jsonQuote versionKey ++ ':' :: jsonQuote versionStr]

/-- The text from the closing bracket of the item list to the end. -/
def manifestSuf (manifest_id short_code station_id : List Char) (ts : Int)
    (nonce : List Char) : List Char :=
  ']' :: ',' :: (manifestRestStr manifest_id short_code station_id ts nonce ++ [rbrace])

/-- The serializer's output on the manifest dict, with `sort_keys=True`
putting `items` first: literally the sorted comma join. -/
theorem manifest_dumps_raw (mid scode sid : List Char) (items : List ManifestItem)
    (ts : Int) (nonce : List Char) :
    jsonDumps true (.jobj (manifestDataDict mid scode sid items ts nonce)) =
      lbrace ::
        (((jsonQuote itemsKey ++ ':' :: jsonDumps true (.jarr (items.map manifestItemJ))) ++
          ',' :: manifestRestStr mid scode sid ts nonce) ++ [rbrace]) := rfl

/-- The canonical manifest JSON splits as a fixed prefix, the comma join
of the rendered items, and a suffix not involving the items. -/
theorem manifest_dumps_decomp (mid scode sid : List Char) (items : List ManifestItem)
    (ts : Int) (nonce : List Char) :
    jsonDumps true (.jobj (manifestDataDict mid scode sid items ts nonce)) =
      manifestPre ++ (joinComma (jsonArr true (items.map manifestItemJ)) ++
        manifestSuf mid scode sid ts nonce) := by
  rw [manifest_dumps_raw]
  show lbrace ::
      (((jsonQuote itemsKey ++ ':' :: ('[' ::
          (joinComma (jsonArr true (items.map manifestItemJ)) ++ [']']))) ++
        ',' :: manifestRestStr mid scode sid ts nonce) ++ [rbrace]) = _
  simp [manifestPre, manifestSuf, List.append_assoc]

/-- Fixed text of a rendered item before the `code` string body. -/
def itemPre : List Char := lbrace :: (jsonQuote codeKey ++ [':', '"'])

/-- Fixed text between the `code` body and the rendered quantity. -/
def itemMid : List Char := '"' :: ',' :: (jsonQuote qtyKey ++ [':'])

/-- Fixed text between the rendered quantity and the `unit` body. -/
def itemMid2 : List Char := ',' :: (jsonQuote unitKey ++ [':', '"'])

/-- Fixed text after the `unit` body. -/
def itemEnd : List Char := ['"', rbrace]

theorem item_dumps_raw (it : ManifestItem) :
    jsonDumps true (manifestItemJ it) =
      lbrace :: (((jsonQuote codeKey ++ ':' :: jsonQuote it.code) ++
        ',' :: ((jsonQuote qtyKey ++ ':' :: intToChars it.qty) ++
          ',' :: (jsonQuote unitKey ++ ':' :: jsonQuote it.unit))) ++ [rbrace]) := rfl

/-- A rendered item splits around the rendered quantity, with prefix and
suffix depending only on `code` and `unit`. -/
theorem item_dumps_decomp (it : ManifestItem) :
    jsonDumps true (manifestItemJ it) =
      itemPre ++ (jsonEscape it.code ++ (itemMid ++ (intToChars it.qty ++
        (itemMid2 ++ (jsonEscape it.unit ++ itemEnd))))) := by
  rw [item_dumps_raw]
  simp [itemPre, itemMid, itemMid2, itemEnd, jsonQuote, List.append_assoc]

/-- Changing one item's quantity changes the canonical manifest bytes:
split both serializations around the rendered quantity and cancel the
unchanged prefix and suffix. -/
theorem canon_tamper_ne (mid scode sid nonce : List Char) (ts : Int)
    (items : List ManifestItem) (j : Nat) (hj : j < items.length) (q2 : Int)
    (hq : (items[j]).qty ≠ q2) :
    canonBytes (.pyDict (manifestDataDict mid scode sid items ts nonce)) ≠
      canonBytes (.pyDict (manifestDataDict mid scode sid
        (items.set j { items[j] with qty := q2 }) ts nonce)) := by
  intro h
  have hcb : ∀ d : List (List Char × JVal),
      canonBytes (.pyDict d) = utf8Encode (jsonDumps true (.jobj d)) := fun d => rfl
  rw [hcb, hcb, manifest_dumps_decomp, manifest_dumps_decomp] at h
  simp only [utf8Encode_append] at h
  have h2 := List.append_cancel_right (List.append_cancel_left h)
  have hsplit : items = items.take j ++ items[j] :: items.drop (j + 1) := by
    conv_lhs => rw [← List.take_append_drop j items, List.drop_eq_getElem_cons hj]
  have hm1 : items.map manifestItemJ =
      (items.take j).map manifestItemJ ++
        manifestItemJ items[j] :: ((items.drop (j + 1)).map manifestItemJ) := by
    calc items.map manifestItemJ
        = (items.take j ++ items[j] :: items.drop (j + 1)).map manifestItemJ := by
          rw [← hsplit]
      _ = (items.take j).map manifestItemJ ++
            manifestItemJ items[j] :: ((items.drop (j + 1)).map manifestItemJ) := by
          rw [List.map_append, List.map_cons]
  have hm2 : (items.set j { items[j] with qty := q2 }).map manifestItemJ =
      (items.take j).map manifestItemJ ++
        manifestItemJ { items[j] with qty := q2 } ::
          ((items.drop (j + 1)).map manifestItemJ) := by
    rw [List.set_eq_take_cons_drop _ hj, List.map_append, List.map_cons]
  rw [jsonArr_eq_map, jsonArr_eq_map, hm1, hm2, List.map_append, List.map_append,
    List.map_cons, List.map_cons, joinComma_split, joinComma_split] at h2
  simp only [utf8Encode_append] at h2
  have h3 := List.append_cancel_right (List.append_cancel_left h2)
  rw [item_dumps_decomp, item_dumps_decomp] at h3
  simp only [utf8Encode_append] at h3
  have h4 :=
    List.append_cancel_left (List.append_cancel_left (List.append_cancel_left h3))
  have h5 := List.append_cancel_right h4
  have h6 := utf8_ascii_inj (intToChars_ascii _) (intToChars_ascii _) h5
  exact hq (intToChars_inj h6)

/-- The signature `create_manifest` embeds is the symbolic signature of
the canonical bytes of the unsigned manifest dict. -/
theorem create_manifest_signature (sk : Nat) (sid : List Char) (items : List ManifestItem)
    (mid scode nonce : List Char) (ts : Int) :
    (ManifestBuilder.create_manifest ⟨sk⟩ sid items mid scode nonce ts).signature =
      ed25519SigB64 sk (canonBytes (.pyDict (manifestDataDict mid scode sid items ts nonce))) :=
  rfl

/-- `verify_manifest` on a `to_dict` output compares the embedded
signature with the expected signature of the other eight fields. -/
theorem verify_manifest_to_dict (pk : Nat) (m : RestockManifest) :
    Ed25519Verifier.verify_manifest pk m.to_dict =
      decide (m.signature = ed25519SigB64 pk (canonBytes (.pyDict
        (manifestDataDict m.manifest_id m.short_code m.station_id m.items m.ts m.nonce)))) :=
  rfl

/-- C5.  A manifest freshly produced by `ManifestBuilder.create_manifest`
verifies under the matching public key, and mutating any single item's
`qty` after signing makes `verify_manifest` return `false`.  (The model
identifies an Ed25519 keypair with its seed, so the matching public key
is the signing seed itself.) -/
theorem c5_manifest_tamper_detection (sk : Nat)
    (station_id manifest_id short_code nonce : List Char) (ts : Int)
    (items : List ManifestItem) (j : Nat) (hj : j < items.length) (q2 : Int)
    (hq : (items[j]).qty ≠ q2) :
    Ed25519Verifier.verify_manifest sk
        (RestockManifest.to_dict
          (ManifestBuilder.create_manifest ⟨sk⟩ station_id items
            manifest_id short_code nonce ts)) = true ∧
    Ed25519Verifier.verify_manifest sk
        (RestockManifest.to_dict
          { ManifestBuilder.create_manifest ⟨sk⟩ station_id items
              manifest_id short_code nonce ts with
            items := items.set j { items[j] with qty := q2 } }) = false := by
  constructor
  · show decide
        ((ManifestBuilder.create_manifest ⟨sk⟩ station_id items
            manifest_id short_code nonce ts).signature =
          ed25519SigB64 sk (canonBytes (.pyDict
            (manifestDataDict manifest_id short_code station_id items ts nonce)))) = true
    rw [create_manifest_signature]
    simp
  · show decide
        ((ManifestBuilder.create_manifest ⟨sk⟩ station_id items
            manifest_id short_code nonce ts).signature =
          ed25519SigB64 sk (canonBytes (.pyDict
            (manifestDataDict manifest_id short_code station_id
              (items.set j { items[j] with qty := q2 }) ts nonce)))) = false
    rw [create_manifest_signature]
    simp only [decide_eq_false_iff_not]
    intro heq
    have hc := ed25519SigB64_inj_msg (utf8Encode_lt _) (utf8Encode_lt _) heq
    exact canon_tamper_ne manifest_id short_code station_id nonce ts items j hj q2 hq hc

/-- Both halves of `c5_manifest_tamper_detection` at a one-item manifest,
with the quantity tampered from 5 to 6. -/
theorem c5_manifest_tamper_detection_witness :
    Ed25519Verifier.verify_manifest 7
        (RestockManifest.to_dict
          (ManifestBuilder.create_manifest ⟨7⟩ ['S'] [⟨['W'], 5, ['u']⟩]
            ['M'] ['1'] ['n'] 0)) = true ∧
    Ed25519Verifier.verify_manifest 7
        (RestockManifest.to_dict
          { ManifestBuilder.create_manifest ⟨7⟩ ['S'] [⟨['W'], 5, ['u']⟩]
              ['M'] ['1'] ['n'] 0 with
            items := [(⟨['W'], 5, ['u']⟩ : ManifestItem)].set 0
              { ([(⟨['W'], 5, ['u']⟩ : ManifestItem)])[0] with qty := 6 } }) = false :=
  c5_manifest_tamper_detection 7 ['S'] ['M'] ['1'] ['n'] 0
    [⟨['W'], 5, ['u']⟩] 0 (by decide) 6 (by decide)

end CIRS
